import Mathlib

/-!
# Verification of the strace-tui core against its specification

A shallow embedding, in Lean 4, of the parsing, stitching, resolving and
view-model code of the `strace-tui` repository, together with theorems
settling the frozen claims about it.

Modelling conventions:

* Rust `&str` / `String` values are modelled as `List Char` (abbreviated
  `Str` below); Rust `str::trim`-style functions are re-implemented on
  lists with the same semantics for the ASCII texts the program handles.
* Rust `HashMap` is modelled as an insertion-ordered association list
  with unique keys (`aLookup` / `aInsert` / `aRemove` below); lookups
  agree with `HashMap` and iteration is in insertion order, one of the
  behaviours the code's arbitrary iteration order permits.
* `f64` durations are kept as the raw matched text: no claim checked
  here inspects the numeric value of a duration, only its presence and
  how it propagates.
* Fallible parsers return `Option`/`Except`.
-/

namespace StraceTui

/-- Rust string slices are modelled as lists of characters. -/
abbrev Str := List Char

/-- Converts a Lean string literal to the model representation. -/
def str (s : String) : Str := s.data

/-- Whitespace test matching Rust `char::is_whitespace` on the ASCII
whitespace the trace format contains. -/
def isWs (c : Char) : Bool := c = ' ' || c = '\t' || c = '\n' || c = '\r'

/-- Model of Rust `str::trim_start`. -/
def trimStart (s : Str) : Str := s.dropWhile isWs

/-- Model of Rust `str::trim_end`. -/
def trimEnd (s : Str) : Str := (s.reverse.dropWhile isWs).reverse

/-- Model of Rust `str::trim`. -/
def trim (s : Str) : Str := trimEnd (trimStart s)

/-- Model of Rust `str::trim_end_matches(['," "','" "' ...])` for the
character set used by the argument scanner (`,` and space). -/
def trimEndCommaSpace (s : Str) : Str :=
  (s.reverse.dropWhile (fun c => c = ',' || c = ' ')).reverse

/-- `startsW hay pat` tests whether `pat` is a prefix of `hay`
(Rust `str::starts_with`). -/
def startsW : Str → Str → Bool
  | _, [] => true
  | [], _ :: _ => false
  | c :: cs, d :: ds => c = d && startsW cs ds

/-- First index at which `pat` occurs in `hay` (Rust `str::find`). -/
def subFind : Str → Str → Option Nat
  | hay, pat =>
    if startsW hay pat then some 0
    else
      match hay with
      | [] => none
      | _ :: t => (subFind t pat).map (· + 1)

/-- `hay` contains `pat` as a substring (Rust `str::contains`). -/
def containsSub (hay pat : Str) : Bool := (subFind hay pat).isSome

/-- Model of Rust `char::to_lowercase` over the ASCII range. -/
def lowerC (c : Char) : Char := c.toLower

/-- Model of Rust `str::to_lowercase` over the ASCII range. -/
def lower (s : Str) : Str := s.map lowerC

/-- First index at which a single character occurs (Rust `str::find(char)`). -/
def charFind (hay : Str) (c : Char) : Option Nat := subFind hay [c]

section AssocList

variable {κ ν : Type} [DecidableEq κ]

/-- `HashMap::get`: the value stored at `k`, if any. -/
def aLookup (l : List (κ × ν)) (k : κ) : Option ν :=
  match l with
  | [] => none
  | (k', v) :: t => if k' = k then some v else aLookup t k

/-- `HashMap::insert`: replaces the binding in place if the key is
present, otherwise appends it (insertion-ordered model). -/
def aInsert (l : List (κ × ν)) (k : κ) (v : ν) : List (κ × ν) :=
  match l with
  | [] => [(k, v)]
  | (k', v') :: t => if k' = k then (k, v) :: t else (k', v') :: aInsert t k v

/-- `HashMap::entry(k).or_insert(v)`: inserts only when absent. -/
def aOrInsert (l : List (κ × ν)) (k : κ) (v : ν) : List (κ × ν) :=
  match aLookup l k with
  | some _ => l
  | none => l ++ [(k, v)]

/-- `HashMap::remove`: drops the binding and returns it, if present. -/
def aRemove (l : List (κ × ν)) (k : κ) : Option ν × List (κ × ν) :=
  match l with
  | [] => (none, [])
  | (k', v) :: t =>
    if k' = k then (some v, t)
    else
      let r := aRemove t k
      (r.1, (k', v) :: r.2)

end AssocList

/-! ## Data model (`src/parser/types.rs`) -/

/-- `Errno` from `types.rs`. -/
structure Errno where
  code : Str
  message : Str
  deriving Repr, DecidableEq

/-- `ResolvedFrame` from `types.rs`. -/
structure ResolvedFrame where
  function : Str
  file : Str
  line : Nat
  column : Option Nat
  is_inlined : Bool
  deriving Repr, DecidableEq

/-- `BacktraceFrame` from `types.rs`. -/
structure BacktraceFrame where
  binary : Str
  function : Option Str
  offset : Option Str
  address : Str
  resolved : Option (List ResolvedFrame)
  deriving Repr, DecidableEq

/-- `SignalInfo` from `types.rs`. -/
structure SignalInfo where
  signal_name : Str
  details : Str
  deriving Repr, DecidableEq

/-- `ExitInfo` from `types.rs`. -/
structure ExitInfo where
  code : Int
  killed : Bool
  deriving Repr, DecidableEq

/-- `SyscallEntry` from `types.rs`.  The `duration` field (an `f64` in
the source) is kept as the raw matched text, `none` standing for Rust's
`None`.  The two cross-reference fields are dereferenced by
`src/tui/app.rs` but absent from the `types.rs` in the tree; they are
modelled as present, initialised to `none`, and — as in
`src/parser/mod.rs`, which never writes them — never assigned. -/
structure SyscallEntry where
  pid : Nat
  timestamp : Str
  syscall_name : Str
  arguments : Str
  return_value : Option Str
  errno : Option Errno
  duration : Option Str
  backtrace : List BacktraceFrame
  is_unfinished : Bool
  is_resumed : Bool
  signal : Option SignalInfo
  exit_info : Option ExitInfo
  unfinished_entry_idx : Option Nat
  resumed_entry_idx : Option Nat
  deriving Repr, DecidableEq

/-- `SyscallEntry::new` from `types.rs`. -/
def SyscallEntry.new (pid : Nat) (timestamp : Str) (syscall_name : Str) :
    SyscallEntry where
  pid := pid
  timestamp := timestamp
  syscall_name := syscall_name
  arguments := []
  return_value := none
  errno := none
  duration := none
  backtrace := []
  is_unfinished := false
  is_resumed := false
  signal := none
  exit_info := none
  unfinished_entry_idx := none
  resumed_entry_idx := none

/-- The abstract error kinds of `ParseError` in `src/parser/mod.rs`.
Message payloads produced by formatting nom errors are abstracted to
the empty string; semantically fixed payloads are kept verbatim. -/
inductive ParseErr where
  | invalidFormat (msg : Str)
  | invalidSyscall (msg : Str)
  | invalidBacktrace (msg : Str)
  | ioError (msg : Str)
  deriving Repr, DecidableEq

/-! ## Line parser (`src/parser/line_parser.rs`)

The nom combinators are modelled as functions `Str → Option (α × Str)`
returning the parsed value and the remaining input. -/

/-- nom `space0` / `space1` character class (space and tab). -/
def isSpaceTab (c : Char) : Bool := c = ' ' || c = '\t'

/-- nom `space0`: consume any spaces/tabs. -/
def dropSpace (s : Str) : Str := s.dropWhile isSpaceTab

/-- nom `take_while1 p`: the longest non-empty prefix of `p`-characters. -/
def takeWhile1 (p : Char → Bool) (s : Str) : Option (Str × Str) :=
  let m := s.takeWhile p
  if m.isEmpty then none else some (m, s.dropWhile p)

/-- nom `space1`. -/
def space1 (s : Str) : Option (Str × Str) := takeWhile1 isSpaceTab s

/-- nom `digit1`. -/
def digit1 (s : Str) : Option (Str × Str) := takeWhile1 Char.isDigit s

/-- Rust `char::is_ascii_hexdigit`. -/
def isHexD (c : Char) : Bool :=
  c.isDigit || ('a' ≤ c && c ≤ 'f') || ('A' ≤ c && c ≤ 'F')

/-- Numeric value of a digit string (no sign). -/
def digitsToNat (d : Str) : Nat := d.foldl (fun a c => a * 10 + (c.toNat - 48)) 0

/-- Rust `str::parse::<u32>().unwrap_or(0)` on a digit string. -/
def parseU32OrZero (d : Str) : Nat :=
  let n := digitsToNat d
  if n < 2 ^ 32 then n else 0

/-- `parse_timestamp`: `recognize(digit1 ':' digit1 ':' digit1 ('.' digit1)?)`.
Returns the matched text and the rest. -/
def parseTimestamp (s : Str) : Option (Str × Str) :=
  match digit1 s with
  | none => none
  | some (d1, r1) =>
    match r1 with
    | ':' :: r2 =>
      match digit1 r2 with
      | none => none
      | some (d2, r3) =>
        match r3 with
        | ':' :: r4 =>
          match digit1 r4 with
          | none => none
          | some (d3, r5) =>
            let base := d1 ++ ':' :: d2 ++ ':' :: d3
            match r5 with
            | '.' :: r6 =>
              match digit1 r6 with
              | some (d4, r7) => some (base ++ '.' :: d4, r7)
              | none => some (base, r5)
            | _ => some (base, r5)
        | _ => none
    | _ => none

/-- `parse_pid_and_timestamp`. -/
def parsePidTs (s : Str) : Option ((Nat × Str) × Str) :=
  match digit1 s with
  | none => none
  | some (pidD, r1) =>
    match space1 r1 with
    | none => none
    | some (_, r2) =>
      match parseTimestamp r2 with
      | none => none
      | some (ts, r3) =>
        match space1 r3 with
        | none => none
        | some (_, r4) => some ((parseU32OrZero pidD, ts), r4)

/-- `parse_timestamp_only`. -/
def parseTsOnly (s : Str) : Option ((Nat × Str) × Str) :=
  match parseTimestamp s with
  | none => none
  | some (ts, r1) =>
    match space1 r1 with
    | none => none
    | some (_, r2) => some ((0, ts), r2)

/-- `parse_pid_only`. -/
def parsePidOnly (s : Str) : Option ((Nat × Str) × Str) :=
  match digit1 s with
  | none => none
  | some (pidD, r1) =>
    match space1 r1 with
    | none => none
    | some (_, r2) => some ((parseU32OrZero pidD, []), r2)

/-- The `or_else` chain over the four line-head shapes; `parse_no_prefix`
always succeeds, so the chain is total. -/
def parseLineHead (s : Str) : (Nat × Str) × Str :=
  match parsePidTs s with
  | some r => r
  | none =>
    match parseTsOnly s with
    | some r => r
    | none =>
      match parsePidOnly s with
      | some r => r
      | none => ((0, []), s)

/-- `parse_syscall_name`: `take_while1` of alphanumerics, `_` and `$`. -/
def parseSyscallName (s : Str) : Option (Str × Str) :=
  takeWhile1 (fun c => c.isAlphanum || c = '_' || c = '$') s

/-- The core scan of `parse_arguments`: index of the `)` at which the
parenthesis depth (which starts at 1 and is tracked over `(` and `)`
only) reaches zero, if any. -/
def findCloseParen : Str → Int → Option Nat
  | [], _ => none
  | c :: t, depth =>
    if c = '(' then (findCloseParen t (depth + 1)).map (· + 1)
    else if c = ')' then
      if depth - 1 = 0 then some 0 else (findCloseParen t (depth - 1)).map (· + 1)
    else (findCloseParen t depth).map (· + 1)

/-- The body of `parse_arguments` once the opening `(` is consumed:
return early at a `<unfinished` occurrence, otherwise scan for the
closing parenthesis tracking depth over `(` and `)` only. -/
def parseArgumentsCore (rest : Str) : Str × Str :=
  match subFind rest (str "<unfinished") with
  | some upos => (trimEndCommaSpace (rest.take upos), rest.drop upos)
  | none =>
    match findCloseParen rest 1 with
    | some endPos => (rest.take endPos, rest.drop (endPos + 1))
    | none => (rest, [])

/-- `parse_arguments` from `line_parser.rs` (lines 120–165): consume
`space0` and `(`, then `parseArgumentsCore`.  Returns
`(arguments, rest)`. -/
def parseArguments (input : Str) : Option (Str × Str) :=
  match dropSpace input with
  | '(' :: rest => some (parseArgumentsCore rest)
  | _ => none

/-- The later `alt` branches of the return-value grammar: signed
decimal, then `?`(+name)?, then `NULL`. -/
def retValAltTail (s : Str) : Option (Str × Str) :=
  let sign : Option (Str × Str) :=
    match s with
    | '-' :: r =>
      match digit1 r with
      | some (d, rest) => some ('-' :: d, rest)
      | none => none
    | _ =>
      match digit1 s with
      | some (d, rest) => some (d, rest)
      | none => none
  match sign with
  | some r => some r
  | none =>
    match s with
    | '?' :: r =>
      match r with
      | '+' :: r2 =>
        match takeWhile1 (fun c => c.isAlphanum || c = '_') r2 with
        | some (nm, rest) => some ('?' :: '+' :: nm, rest)
        | none => some (['?'], r)
      | _ => some (['?'], r)
    | _ =>
      if startsW s (str "NULL") then some (str "NULL", s.drop 4) else none

/-- The `alt` of return-value shapes, in source order: hex first, then
the remaining branches. -/
def retValAlt (s : Str) : Option (Str × Str) :=
  match s with
  | '0' :: 'x' :: r =>
    match takeWhile1 isHexD r with
    | some (h, rest) => some ('0' :: 'x' :: h, rest)
    | none => retValAltTail s
  | _ => retValAltTail s

/-- `parse_return_value`: `space0 '=' space0` then the alternatives. -/
def parseReturnValue (input : Str) : Option (Option Str × Str) :=
  match dropSpace input with
  | '=' :: r2 =>
    match retValAlt (dropSpace r2) with
    | some (v, rest) => some (some v, rest)
    | none => none
  | _ => none

/-- `parse_errno`: an upper-case/digit code, then an optional
parenthesised message located by plain `find`. -/
def parseErrno (input : Str) : Option (Errno × Str) :=
  match takeWhile1 (fun c => c.isUpper || c.isDigit) (dropSpace input) with
  | none => none
  | some (code, rest) =>
    let message :=
      match charFind rest '(' with
      | some st =>
        match charFind (rest.drop st) ')' with
        | some en => (rest.drop (st + 1)).take (en - 1)
        | none => []
      | none => []
    some ({ code := code, message := message }, rest)

/-- `parse_duration`: `space0 '<' recognize(digit1? ('.' digit1)?) '>'`.
The matched text is returned in place of the `f64` value that Rust
computes from it (`""` stands for the `unwrap_or(0.0)` case). -/
def parseDuration (input : Str) : Option (Str × Str) :=
  match dropSpace input with
  | '<' :: r2 =>
    let ip := r2.takeWhile Char.isDigit
    let r3 := r2.dropWhile Char.isDigit
    let fpr : Str × Str :=
      match r3 with
      | '.' :: r3' =>
        match digit1 r3' with
        | some (ds, r'') => ('.' :: ds, r'')
        | none => ([], r3)
      | _ => ([], r3)
    match fpr.2 with
    | '>' :: r5 => some (ip ++ fpr.1, r5)
    | _ => none
  | _ => none

/-- `parse_resumed_line` (lines 229–288). -/
def parseResumedLine (pid : Nat) (timestamp : Str) (input0 : Str) :
    SyscallEntry :=
  let input := trimStart input0
  let syscall_name :=
    match subFind input (str "<...") with
    | some st =>
      let afterDots := trimStart (input.drop (st + 4))
      match subFind afterDots (str "resumed>") with
      | some en => trim (afterDots.take en)
      | none => str "unknown"
    | none => str "unknown"
  let e1 : SyscallEntry :=
    { SyscallEntry.new pid timestamp syscall_name with is_resumed := true }
  match subFind input (str "resumed>") with
  | none => e1
  | some pos =>
    let afterResumed := trimStart (input.drop (pos + 8))
    let step :=
      match subFind afterResumed (str ") = ") with
      | some retStart =>
        ({ e1 with arguments := trim (afterResumed.take (retStart + 1)) },
          some (afterResumed.drop (retStart + 1)))
      | none =>
        (e1, (charFind afterResumed '=').map (fun eq => afterResumed.drop eq))
    match step.2 with
    | none => step.1
    | some rp =>
      match parseReturnValue rp with
      | none => step.1
      | some (retVal, rest) =>
        let e3 := { step.1 with return_value := retVal }
        let e4 :=
          match retVal with
          | some rv =>
            if startsW rv (str "-1") then
              match parseErrno rest with
              | some (er, _) => { e3 with errno := some er }
              | none => e3
            else e3
          | none => e3
        match parseDuration rest with
        | some (d, _) => { e4 with duration := some d }
        | none => e4

/-- First whitespace-separated token (`split_whitespace().next()`). -/
def firstToken (s : Str) : Option Str :=
  match trimStart s with
  | [] => none
  | t => some (t.takeWhile (fun c => !isWs c))

/-- `parse_signal_line`. -/
def parseSignalLine (line : Str) : SyscallEntry :=
  let head := (parseLineHead line).1
  let e0 := SyscallEntry.new head.1 head.2 (str "signal")
  match subFind line (str "---") with
  | none => e0
  | some st =>
    let afterStart := line.drop (st + 3)
    match subFind afterStart (str "---") with
    | none => e0
    | some en =>
      let signalText := trim (afterStart.take en)
      let name := (firstToken signalText).getD (str "UNKNOWN")
      { e0 with signal := some { signal_name := name, details := signalText } }

/-- Rust `str::parse::<i32>().ok()` on a token. -/
def parseI32 (s : Str) : Option Int :=
  let core : Option Nat :=
    match s with
    | '-' :: r => if r ≠ [] && r.all Char.isDigit then some (digitsToNat r) else none
    | _ => if s ≠ [] && s.all Char.isDigit then some (digitsToNat s) else none
  match s, core with
  | '-' :: _, some n => if (n : Int) ≤ 2 ^ 31 then some (-(n : Int)) else none
  | _, some n => if (n : Int) < 2 ^ 31 then some (n : Int) else none
  | _, none => none

/-- `nth(1)` of `str::split(pat)`: the text between the first and the
second occurrence of `pat` (or the end). -/
def splitNth1 (s pat : Str) : Option Str :=
  match subFind s pat with
  | none => none
  | some i =>
    let rest := s.drop (i + pat.length)
    match subFind rest pat with
    | some j => some (rest.take j)
    | none => some rest

/-- `parse_exit_line`. -/
def parseExitLine (line : Str) : SyscallEntry :=
  let head := (parseLineHead line).1
  let e0 := SyscallEntry.new head.1 head.2 (str "exit")
  match subFind line (str "+++") with
  | none => e0
  | some st =>
    let afterStart := line.drop (st + 3)
    let exitCode : Int :=
      if containsSub afterStart (str "exited with") then
        match (splitNth1 afterStart (str "with")).bind firstToken with
        | some tok => (parseI32 tok).getD 0
        | none => 0
      else 0
    { e0 with
      exit_info := some
        { code := exitCode, killed := containsSub afterStart (str "killed") } }

/-- `parse_strace_line` (lines 13–70): the entry point of the line
parser. -/
def parseStraceLine (line : Str) : Except ParseErr SyscallEntry :=
  if containsSub line (str "+++") then .ok (parseExitLine line)
  else if containsSub line (str "---") then .ok (parseSignalLine line)
  else
    let head := parseLineHead line
    let pid := head.1.1
    let timestamp := head.1.2
    let rest := head.2
    if startsW (trimStart rest) (str "<...") then
      .ok (parseResumedLine pid timestamp rest)
    else
      match parseSyscallName rest with
      | none => .error (.invalidSyscall [])
      | some (syscall_name, rest1) =>
        let e0 := SyscallEntry.new pid timestamp syscall_name
        match parseArguments rest1 with
        | none => .error (.invalidSyscall [])
        | some (args, rest2) =>
          let e1 := { e0 with arguments := args }
          if containsSub rest2 (str "<unfinished") then
            .ok { e1 with is_unfinished := true }
          else
            let rv :=
              match parseReturnValue rest2 with
              | some (v, r) => (v, r)
              | none => (none, rest2)
            let e2 := { e1 with return_value := rv.1 }
            let e3 :=
              match rv.1 with
              | some ret =>
                if startsW ret (str "-1") || startsW ret (str "?") then
                  match parseErrno rv.2 with
                  | some (er, _) => { e2 with errno := some er }
                  | none => e2
                else e2
              | none => e2
            match parseDuration rv.2 with
            | some (d, _) => .ok { e3 with duration := some d }
            | none => .ok e3

/-! ## Backtrace parser (`src/parser/backtrace_parser.rs`) -/

/-- `take_until_any`: everything before the first occurrence of one of
the given characters (the whole input if none occurs); fails on an
empty match. -/
def takeUntilAny (cs : List Char) (input : Str) : Option (Str × Str) :=
  let pos := (input.findIdx? (fun c => cs.contains c)).getD input.length
  if pos = 0 then none else some (input.take pos, input.drop pos)

/-- `parse_function_info`: `'(' take_until(")") ')'`, with an optional
`+`-separated offset inside. -/
def parseFunctionInfo (input : Str) : Option ((Str × Option Str) × Str) :=
  match input with
  | '(' :: r =>
    match subFind r (str ")") with
    | none => none
    | some i =>
      let content := r.take i
      let rest := r.drop (i + 1)
      match charFind content '+' with
      | some plusPos =>
        let function := content.take plusPos
        let offset := content.drop (plusPos + 1)
        if function.isEmpty then some (([], some offset), rest)
        else some ((function, some offset), rest)
      | none => some ((content, none), rest)
  | _ => none

/-- `parse_address`: `space0 '[' "0x" hexdigit1 ']'`. -/
def parseAddress (input : Str) : Option (Str × Str) :=
  match dropSpace input with
  | '[' :: '0' :: 'x' :: r3 =>
    match takeWhile1 isHexD r3 with
    | some hr =>
      match hr.2 with
      | ']' :: r5 => some ('0' :: 'x' :: hr.1, r5)
      | _ => none
    | none => none
  | _ => none

/-- The `if rest.starts_with('(') && let Ok(..) = parse_function_info`
arm of `parse_frame`: the frame completed with function info and an
optional address, if that arm applies. -/
def parseFrameFn (f0 : BacktraceFrame) (rest : Str) : Option BacktraceFrame :=
  match rest with
  | '(' :: _ =>
    match parseFunctionInfo rest with
    | some fir =>
      let f1 := { f0 with function := some fir.1.1, offset := fir.1.2 }
      match parseAddress fir.2 with
      | some ar => some { f1 with address := ar.1 }
      | none => some f1
    | none => none
  | _ => none

/-- The frame skeleton built from the binary segment (backtrace_parser.rs
lines 34–40). -/
def frame0 (binary : Str) : BacktraceFrame :=
  { binary := trim binary, function := none, offset := none,
    address := [], resolved := none }

/-- `parse_frame` (backtrace_parser.rs lines 30–63).  Both the function
info and the address are optional: a failing `parse_address` leaves the
frame's `address` empty. -/
def parseFrame (input : Str) : Option BacktraceFrame :=
  match takeUntilAny ['(', '['] input with
  | none => none
  | some br =>
    match parseFrameFn (frame0 br.1) br.2 with
    | some f => some f
    | none =>
      match parseAddress br.2 with
      | some ar => some { frame0 br.1 with address := ar.1 }
      | none => some (frame0 br.1)

/-- `parse_backtrace_line` (backtrace_parser.rs lines 13–27).  Error
message payloads are abstracted to the empty string. -/
def parseBacktraceLine (line : Str) : Except ParseErr BacktraceFrame :=
  match trimStart line with
  | '>' :: r =>
    match parseFrame (trimStart r) with
    | some f => .ok f
    | none => .error (.invalidBacktrace [])
  | _ => .error (.invalidBacktrace [])

/-! ## Stitching parser (`src/parser/mod.rs`) -/

/-- The fields of `StraceParser`. -/
structure ParserState where
  unfinished : List (Nat × Nat)
  errors : List (Nat × ParseErr)
  line_number : Nat
  deriving Repr, DecidableEq

/-- The whole loop state of `StraceParser::parse_lines`: the parser
fields plus the `entries` vector and the `current_entry` local. -/
structure LoopState where
  st : ParserState
  entries : List SyscallEntry
  current : Option SyscallEntry
  deriving Repr, DecidableEq

/-- The entries vector once the pending `current_entry` is finalized
(mod.rs lines 91–93). -/
def LoopState.pushed (s : LoopState) : List SyscallEntry :=
  match s.current with
  | some e => s.entries ++ [e]
  | none => s.entries

/-- One iteration of the `for line in lines` loop of `parse_lines`
(mod.rs lines 71–128). -/
def parseLinesStep (s : LoopState) (line : Str) : LoopState :=
  let st := { s.st with line_number := s.st.line_number + 1 }
  if (trim line).isEmpty then { s with st := st }
  else if startsW (trimStart line) (str ">") then
    match s.current with
    | some entry =>
      match parseBacktraceLine line with
      | .ok frame =>
        let entry2 := { entry with backtrace := entry.backtrace ++ [frame] }
        { s with st := st, current := some entry2 }
      | .error e =>
        { s with st := { st with errors := st.errors ++ [(st.line_number, e)] } }
    | none => { s with st := st }
  else
    let entries := s.pushed
    match parseStraceLine line with
    | .ok entry =>
      if entry.is_unfinished then
        { st := { st with unfinished := aInsert st.unfinished entry.pid entries.length },
          entries := entries, current := some entry }
      else if entry.is_resumed then
        match aRemove st.unfinished entry.pid with
        | (some uidx, unf2) =>
          -- Rust indexes `entries` with `.unwrap()`; the stored index is
          -- always in range for streams driven through this loop, and
          -- `List.set` is the identity out of range.
          let merged :=
            match entries.get? uidx with
            | some orig =>
              { orig with
                return_value := entry.return_value
                errno := entry.errno
                duration := entry.duration
                is_resumed := false
                is_unfinished := false }
            | none => entry
          { st := { st with unfinished := unf2 },
            entries := entries.set uidx merged, current := none }
        | (none, _) =>
          { st := { st with errors := st.errors ++
              [(st.line_number, .invalidFormat (str "resumed without unfinished"))] },
            entries := entries, current := some entry }
      else
        { st := st, entries := entries, current := some entry }
    | .error e =>
      { st := { st with errors := st.errors ++ [(st.line_number, e)] },
        entries := entries, current := none }

/-- Running the loop from a given state. -/
def parseLinesFrom (s : LoopState) (lines : List Str) : LoopState :=
  lines.foldl parseLinesStep s

/-- `StraceParser::new()` followed by `parse_lines`: the produced entry
list and the accumulated error list. -/
def parseLines (lines : List Str) : List SyscallEntry × List (Nat × ParseErr) :=
  let fin := parseLinesFrom ⟨⟨[], [], 0⟩, [], none⟩ lines
  (match fin.current with
   | some e => fin.entries ++ [e]
   | none => fin.entries,
   fin.st.errors)

/-! ## Address resolver (`src/parser/resolver.rs`)

The `addr2line` library is an external collaborator; its loaders are
abstracted to opaque `Nat` handles and its two operations are
parameters of the model (`Addr2LineEnv`).  The resolver state carries
an extra observer field `ctorCalls` counting the invocations of
`addr2line::Loader::new`, which the code itself performs but does not
count; the field is written exactly where the source calls the
constructor and read by no modelled code path. -/

/-- The location data of one `addr2line` frame. -/
structure A2LLocation where
  file : Option Str
  line : Option Nat
  column : Option Nat
  deriving Repr, DecidableEq

/-- One frame returned by `loader.find_frames`: an optional location
and an optional function whose demangling may fail (`some none`). -/
structure FrameInfo where
  location : Option A2LLocation
  function : Option (Option Str)
  deriving Repr, DecidableEq

/-- The abstracted `addr2line` library interface. -/
structure Addr2LineEnv where
  newLoader : Str → Option Nat
  findFrames : Nat → Nat → Option (List FrameInfo)

/-- The fields of `Addr2LineResolver`, plus the constructor-call
observer. -/
structure ResolverState where
  loaders : List (Str × Nat)
  cache : List (Str × Option (List ResolvedFrame))
  ctorCalls : Nat
  deriving Repr, DecidableEq

/-- `Addr2LineResolver::new()`. -/
def ResolverState.new : ResolverState := ⟨[], [], 0⟩

/-- `Addr2LineResolver::get_loader` (resolver.rs lines 55–69): return a
cached loader, otherwise attempt construction; a successful
construction is cached, a failed one is not. -/
def getLoader (env : Addr2LineEnv) (rs : ResolverState) (binary : Str) :
    Option Nat × ResolverState :=
  match aLookup rs.loaders binary with
  | some l => (some l, rs)
  | none =>
    let rs1 := { rs with ctorCalls := rs.ctorCalls + 1 }
    match env.newLoader binary with
    | some l => (some l, { rs1 with loaders := aInsert rs1.loaders binary l })
    | none => (none, rs1)

/-- Hex digit value. -/
def hexVal (c : Char) : Nat :=
  if c.isDigit then c.toNat - 48
  else if 'a' ≤ c && c ≤ 'f' then c.toNat - 87
  else c.toNat - 55

/-- `u64::from_str_radix(s, 16)`: an optional `+` sign, one or more hex
digits, overflow rejected. -/
def parseHexU64 (s : Str) : Option Nat :=
  let body := match s with
    | '+' :: r => r
    | r => r
  if !body.isEmpty && body.all isHexD then
    let v := body.foldl (fun a c => a * 16 + hexVal c) 0
    if v < 2 ^ 64 then some v else none
  else none

/-- The frame-collection loop of `resolve_address` (resolver.rs lines
87–122): frames without a location or with the `??` file sentinel are
skipped; a present location lacking a file or a line aborts the whole
resolution through the `?` operator. -/
def collectFrames : List FrameInfo → Option (List ResolvedFrame)
  | [] => some []
  | fi :: t =>
    match fi.location with
    | none => collectFrames t
    | some loc =>
      if loc.file = some (str "??") then collectFrames t
      else
        let fname :=
          match fi.function with
          | some (some nm) => nm
          | some none => str "<unknown>"
          | none => str "<unknown>"
        match loc.file with
        | none => none
        | some file =>
          match loc.line with
          | none => none
          | some line =>
            (collectFrames t).map
              (fun rest =>
                { function := fname, file := file, line := line,
                  column := loc.column, is_inlined := false } :: rest)

/-- Mark all but the last collected frame as inlined (resolver.rs lines
124–130). -/
def markInlined : List ResolvedFrame → List ResolvedFrame
  | [] => []
  | [x] => [x]
  | x :: t => { x with is_inlined := true } :: markInlined t

/-- `Addr2LineResolver::resolve_address` (resolver.rs lines 72–140). -/
def resolveAddress (env : Addr2LineEnv) (rs : ResolverState)
    (binary addrStr : Str) : Option (List ResolvedFrame) × ResolverState :=
  let step := getLoader env rs binary
  match step.1 with
  | none => (none, step.2)
  | some loader =>
    let stripped := if startsW addrStr (str "0x") then addrStr.drop 2 else addrStr
    match parseHexU64 stripped with
    | none => (none, step.2)
    | some address =>
      match env.findFrames loader address with
      | none => (none, step.2)
      | some frameInfos =>
        match collectFrames frameInfos with
        | none => (none, step.2)
        | some collected =>
          let marked := markInlined collected
          if marked.isEmpty then (none, step.2) else (some marked, step.2)

/-- The `binary:address` cache key of `resolve_frame`. -/
def cacheKey (frame : BacktraceFrame) : Str :=
  frame.binary ++ ':' :: frame.address

/-- `Addr2LineResolver::resolve_frame` (resolver.rs lines 26–43). -/
def resolveFrame (env : Addr2LineEnv) (rs : ResolverState)
    (frame : BacktraceFrame) : BacktraceFrame × ResolverState :=
  match aLookup rs.cache (cacheKey frame) with
  | some cached => ({ frame with resolved := cached }, rs)
  | none =>
    let step := resolveAddress env rs frame.binary frame.address
    ({ frame with resolved := step.1 },
      { step.2 with cache := aInsert step.2.cache (cacheKey frame) step.1 })

/-- `Addr2LineResolver::resolve_frames`. -/
def resolveFrames (env : Addr2LineEnv) (rs : ResolverState)
    (frames : List BacktraceFrame) : List BacktraceFrame × ResolverState :=
  match frames with
  | [] => ([], rs)
  | f :: t =>
    let step := resolveFrame env rs f
    let rest := resolveFrames env step.2 t
    (step.1 :: rest.1, rest.2)

/-! ## Process graph (`src/tui/process_graph.rs`)

Rust's `slice::sort_by_key` is a stable sort; it is modelled by a
stable insertion sort (`sortByKey`), whose sortedness, stability and
permutation properties are proved below.  `sort_unstable` on the free
lane pool sorts plain numbers, for which the same function serves. -/

/-- Insert `x` behind every element whose key is `≤ key x` (the stable
insertion step). -/
def insBy (key : α → Nat) (x : α) : List α → List α
  | [] => [x]
  | y :: t => if key y ≤ key x then y :: insBy key x t else x :: y :: t

/-- Stable insertion sort by a `Nat` key. -/
def sortByKey (key : α → Nat) (l : List α) : List α :=
  l.foldl (fun acc x => insBy key x acc) []

/-- One `(pid, index, is_end)` element of `pids_ordered`. -/
structure PEvent where
  pid : Nat
  idx : Nat
  isEnd : Bool
  deriving Repr, DecidableEq

/-- `ProcessInfo` from `process_graph.rs`; the `color` field stores the
palette position `index % GRAPH_COLORS.len()` instead of the ratatui
colour value. -/
structure ProcessInfo where
  pid : Nat
  column : Nat
  color : Nat
  first_entry_idx : Nat
  last_entry_idx : Nat
  parent_pid : Option Nat
  deriving Repr, DecidableEq

/-- The first pass's accumulated maps and fork table. -/
structure Scan where
  firstSeen : List (Nat × Nat)
  lastSeen : List (Nat × Nat)
  forkRels : List (Nat × Nat × Nat)
  deriving Repr, DecidableEq

/-- `ProcessGraph::is_fork_syscall`. -/
def isForkName (s : Str) : Bool :=
  s = str "fork" || s = str "vfork" || s = str "clone" || s = str "clone3"

/-- `ProcessGraph::is_wait_syscall`. -/
def isWaitName (s : Str) : Bool :=
  s = str "wait4" || s = str "waitid" || s = str "waitpid"

/-- `str::parse::<u32>()`: an optional `+` sign and digits, overflow
rejected. -/
def parseU32Strict (s : Str) : Option Nat :=
  let body := match s with
    | '+' :: r => r
    | r => r
  if !body.isEmpty && body.all Char.isDigit then
    let v := digitsToNat body
    if v < 2 ^ 32 then some v else none
  else none

/-- One iteration of the first pass of `ProcessGraph::build`
(process_graph.rs lines 49–77). -/
def scanStep (idx : Nat) (e : SyscallEntry) (s : Scan) : Scan :=
  let s1 : Scan :=
    { s with
      firstSeen := aOrInsert s.firstSeen e.pid idx
      lastSeen := aInsert s.lastSeen e.pid idx }
  let s2 : Scan :=
    if isForkName e.syscall_name then
      match e.return_value.bind (fun r => parseU32Strict (trim r)) with
      | some child =>
        if child > 0 then
          { s1 with
            forkRels := s1.forkRels ++ [(idx, e.pid, child)]
            firstSeen := aOrInsert s1.firstSeen child idx
            lastSeen := aInsert s1.lastSeen child idx }
        else s1
      | none => s1
    else s1
  if isWaitName e.syscall_name then
    match e.return_value.bind (fun r => parseU32Strict (trim r)) with
    | some w => if w > 0 then { s2 with lastSeen := aInsert s2.lastSeen w idx } else s2
    | none => s2
  else s2

/-- The first pass, with the running entry index made explicit. -/
def scanGo (idx : Nat) (s : Scan) : List SyscallEntry → Scan
  | [] => s
  | e :: t => scanGo (idx + 1) (scanStep idx e s) t

/-- The second pass's accumulator: the `processes` map, the free lane
pool, the lane watermark, and the running `enumerate` counter. -/
structure GBuild where
  processes : List (Nat × ProcessInfo)
  free_columns : List Nat
  max_columns : Nat
  counter : Nat
  deriving Repr, DecidableEq

/-- One iteration of the second pass (process_graph.rs lines 91–129):
an end event frees the lane of a known PID; a start event sorts the
pool, takes its smallest lane (or allocates a fresh one) and records
the `ProcessInfo`. -/
def graphStep (lastSeen : List (Nat × Nat)) (forkRels : List (Nat × Nat × Nat))
    (s : GBuild) (ev : PEvent) : GBuild :=
  if ev.isEnd then
    match aLookup s.processes ev.pid with
    | some info =>
      { s with
        free_columns := s.free_columns ++ [info.column]
        counter := s.counter + 1 }
    | none => { s with counter := s.counter + 1 }
  else
    let sortedFree := sortByKey id s.free_columns
    let alloc : Nat × List Nat × Nat :=
      match sortedFree with
      | [] => (s.max_columns, [], s.max_columns + 1)
      | c :: rest => (c, rest, s.max_columns)
    let parent := (forkRels.find? (fun r => r.2.2 = ev.pid)).map (fun r => r.2.1)
    { processes := aInsert s.processes ev.pid
        { pid := ev.pid, column := alloc.1, color := s.counter % 8,
          first_entry_idx := ev.idx,
          last_entry_idx := (aLookup lastSeen ev.pid).getD ev.idx,
          parent_pid := parent }
      free_columns := alloc.2.1
      max_columns := alloc.2.2
      counter := s.counter + 1 }

/-- The `ProcessGraph` result. -/
structure ProcessGraph where
  processes : List (Nat × ProcessInfo)
  max_columns : Nat
  enabled : Bool
  deriving Repr, DecidableEq

/-- The event stream of the second pass: the start events (from
`first_seen`, in iteration order) followed by the end events (from
`last_seen`), stably sorted by entry index. -/
def orderedEvents (scan : Scan) : List PEvent :=
  sortByKey PEvent.idx
    (scan.firstSeen.map (fun pi => ⟨pi.1, pi.2, false⟩) ++
      scan.lastSeen.map (fun pi => ⟨pi.1, pi.2, true⟩))

/-- `ProcessGraph::build` (process_graph.rs lines 42–138). -/
def buildGraph (entries : List SyscallEntry) : ProcessGraph :=
  let scan := scanGo 0 ⟨[], [], []⟩ entries
  let fin := (orderedEvents scan).foldl
    (graphStep scan.lastSeen scan.forkRels) ⟨[], [], 0, 0⟩
  { processes := fin.processes
    max_columns := fin.max_columns
    enabled := fin.max_columns > 1 }

/-! ## View model (`src/tui/app.rs`) -/

/-- `split_arguments` loop state (app.rs lines 1949–1953).  The depth
counter is a signed integer in the source and may go negative. -/
structure SplitSt where
  result : List Str
  current : Str
  depth : Int
  in_string : Bool
  escape_next : Bool
  deriving Repr, DecidableEq

/-- One character step of `split_arguments` (app.rs lines 1955–1991). -/
def splitStep (st : SplitSt) (ch : Char) : SplitSt :=
  if st.escape_next then
    { st with current := st.current ++ [ch], escape_next := false }
  else if ch = '\\' then
    { st with escape_next := true, current := st.current ++ [ch] }
  else if ch = '"' then
    { st with in_string := !st.in_string, current := st.current ++ [ch] }
  else if (ch = '(' || ch = '{' || ch = '[') && !st.in_string then
    { st with depth := st.depth + 1, current := st.current ++ [ch] }
  else if (ch = ')' || ch = '}' || ch = ']') && !st.in_string then
    { st with depth := st.depth - 1, current := st.current ++ [ch] }
  else if ch = ',' && !st.in_string && st.depth = 0 then
    let t := trim st.current
    { st with
      result := if t.isEmpty then st.result else st.result ++ [t]
      current := [] }
  else { st with current := st.current ++ [ch] }

/-- `split_arguments` (app.rs lines 1948–2005). -/
def splitArguments (args : Str) : List Str :=
  let fin := args.foldl splitStep ⟨[], [], 0, false, false⟩
  let t := trim fin.current
  let res := if t.isEmpty then fin.result else fin.result ++ [t]
  if res.isEmpty && !(trim args).isEmpty then [trim args] else res

/-- `TreeElement` from app.rs. -/
inductive TreeElement where
  | null
  | space
  | vertical
  | branch
  | lastBranch
  deriving Repr, DecidableEq

/-- `TreePrefix`: the fixed-capacity (4) element array, kept at length
4 throughout.  Renamed to avoid a reserved suffix. -/
abbrev TreePfx := List TreeElement

/-- The all-`Null` base prefix. -/
def emptyPfx : TreePfx := [.null, .null, .null, .null]

/-- `App::build_tree_prefix` (renamed): write a branch element into the
first free slot, or return the prefix unchanged at max depth. -/
def buildTreePfx (parent : TreePfx) (isLast : Bool) : TreePfx :=
  match parent.findIdx? (· = TreeElement.null) with
  | none => parent
  | some d => parent.set d (if isLast then .lastBranch else .branch)

/-- `App::build_nested_prefix` (renamed): replace the last non-null
slot with a continuation element. -/
def buildNestedPfx (parent : TreePfx) (parentIsLast : Bool) : TreePfx :=
  let k := (parent.takeWhile (· ≠ TreeElement.null)).length
  if k = 0 then parent
  else parent.set (k - 1) (if parentIsLast then .space else .vertical)

/-- The per-element glyphs of `tree_prefix_to_string`. -/
def pfxGlyph : TreeElement → Str
  | .null => []
  | .space => str "   "
  | .vertical => str "│  "
  | .branch => str "├─ "
  | .lastBranch => str "└─ "

/-- `App::tree_prefix_to_string`: two leading spaces then the glyphs up
to the first null. -/
def pfxToStr (p : TreePfx) : Str :=
  str "  " ++ (p.takeWhile (· ≠ TreeElement.null)).flatMap pfxGlyph

/-- `App::tree_prefix_to_string_header`: the same with the last two
characters popped. -/
def pfxToStrHeader (p : TreePfx) : Str := (pfxToStr p).dropLast.dropLast

/-- `DisplayLine` from app.rs (the `tree_prefix` field is named
`treePfx`). -/
inductive DisplayLine where
  | syscallHeader (entry_idx : Nat) (is_hidden : Bool) (is_search_match : Bool)
  | argumentsHeader (entry_idx : Nat) (treePfx : TreePfx) (is_search_match : Bool)
  | argumentLine (entry_idx arg_idx : Nat) (treePfx : TreePfx) (is_search_match : Bool)
  | returnValue (entry_idx : Nat) (treePfx : TreePfx) (is_search_match : Bool)
  | error (entry_idx : Nat) (treePfx : TreePfx) (is_search_match : Bool)
  | duration (entry_idx : Nat) (treePfx : TreePfx) (is_search_match : Bool)
  | signal (entry_idx : Nat) (treePfx : TreePfx) (is_search_match : Bool)
  | exit (entry_idx : Nat) (treePfx : TreePfx) (is_search_match : Bool)
  | entryReference (entry_idx : Nat) (treePfx : TreePfx) (is_search_match : Bool)
  | backtraceHeader (entry_idx : Nat) (treePfx : TreePfx) (is_search_match : Bool)
  | backtraceFrame (entry_idx frame_idx : Nat) (treePfx : TreePfx) (is_search_match : Bool)
  | backtraceResolved (entry_idx frame_idx resolved_idx : Nat) (treePfx : TreePfx)
      (is_search_match : Bool)
  deriving Repr, DecidableEq

/-- `DisplayLine::entry_idx`. -/
def DisplayLine.entryIdx : DisplayLine → Nat
  | .syscallHeader i _ _ => i
  | .argumentsHeader i _ _ => i
  | .argumentLine i _ _ _ => i
  | .returnValue i _ _ => i
  | .error i _ _ => i
  | .duration i _ _ => i
  | .signal i _ _ => i
  | .exit i _ _ => i
  | .entryReference i _ _ => i
  | .backtraceHeader i _ _ => i
  | .backtraceFrame i _ _ _ => i
  | .backtraceResolved i _ _ _ _ => i

/-- Overwrite the `is_search_match` flag of a display line. -/
def DisplayLine.setMatch : DisplayLine → Bool → DisplayLine
  | .syscallHeader i h _, b => .syscallHeader i h b
  | .argumentsHeader i p _, b => .argumentsHeader i p b
  | .argumentLine i a p _, b => .argumentLine i a p b
  | .returnValue i p _, b => .returnValue i p b
  | .error i p _, b => .error i p b
  | .duration i p _, b => .duration i p b
  | .signal i p _, b => .signal i p b
  | .exit i p _, b => .exit i p b
  | .entryReference i p _, b => .entryReference i p b
  | .backtraceHeader i p _, b => .backtraceHeader i p b
  | .backtraceFrame i f p _, b => .backtraceFrame i f p b
  | .backtraceResolved i f r p _, b => .backtraceResolved i f r p b

/-- `SearchState` from app.rs. -/
structure SearchState where
  active : Bool
  query : Str
  -- the Rust field is `matches`, a reserved token in Lean
  matchList : List Nat
  current_match_idx : Nat
  original_position : Nat
  original_scroll : Nat
  deriving Repr, DecidableEq

/-- `SearchState::new()`. -/
def SearchState.init : SearchState := ⟨false, [], [], 0, 0, 0⟩

/-- The `App` state, restricted to the fields read or written by the
operations modelled here (`rebuild_display_lines`,
`update_search_matches_internal`, `ensure_visible`,
`toggle_show_hidden`).  The omitted fields (resolver, process graph,
filter-modal state, fold memory, flags) are neither read nor written
by these operations. -/
structure App where
  entries : List SyscallEntry
  display_lines : List DisplayLine
  selected_line : Nat
  scroll_offset : Nat
  expanded_items : List Nat
  expanded_arguments : List Nat
  expanded_backtraces : List Nat
  last_visible_height : Nat
  hidden_syscalls : List Str
  show_hidden : Bool
  search_state : SearchState
  deriving Repr, DecidableEq

/-- Decimal rendering of a natural number. -/
def natToStr (n : Nat) : Str := Nat.toDigits 10 n

/-- Decimal rendering of an integer. -/
def intToStr (i : Int) : Str :=
  if i < 0 then '-' :: natToStr i.natAbs else natToStr i.natAbs

/-- Rust `{}` rendering of a boolean. -/
def boolToStr (b : Bool) : Str := if b then str "true" else str "false"

/-- A placeholder entry for the out-of-range accesses that Rust would
answer with a panic; display lines always carry in-range indices. -/
def defaultEntry : SyscallEntry := SyscallEntry.new 0 [] []

/-- `App::get_line_text` (app.rs lines 1498–1591): the text a display
line is searched by.  Duration rows yield the empty string. -/
def getLineText (entries : List SyscallEntry) : DisplayLine → Str
  | .syscallHeader i _ _ =>
    let e := entries.getD i defaultEntry
    e.syscall_name ++ ' ' :: e.arguments ++ ' ' :: (e.return_value.getD [])
  | .argumentLine i a _ _ =>
    let e := entries.getD i defaultEntry
    (splitArguments e.arguments).getD a []
  | .argumentsHeader _ _ _ => str "Arguments"
  | .returnValue i _ _ =>
    let e := entries.getD i defaultEntry
    str "Return: " ++ (e.return_value.getD (str "?"))
  | .error i _ _ =>
    let e := entries.getD i defaultEntry
    match e.errno with
    | some er => str "Error: " ++ er.code ++ ' ' :: er.message
    | none => []
  | .signal i _ _ =>
    let e := entries.getD i defaultEntry
    match e.signal with
    | some sg => str "Signal: " ++ sg.signal_name
    | none => []
  | .exit i _ _ =>
    let e := entries.getD i defaultEntry
    match e.exit_info with
    | some x =>
      str "Exit: code=" ++ intToStr x.code ++ str " killed=" ++ boolToStr x.killed
    | none => []
  | .entryReference i _ _ =>
    let e := entries.getD i defaultEntry
    match e.unfinished_entry_idx with
    | some u => str "Resumed from entry #" ++ natToStr (u + 1)
    | none =>
      match e.resumed_entry_idx with
      | some r => str "See resumed in entry #" ++ natToStr (r + 1)
      | none => []
  | .backtraceHeader _ _ _ => str "Backtrace"
  | .backtraceFrame i f _ _ =>
    let e := entries.getD i defaultEntry
    match e.backtrace.get? f with
    | some fr => fr.binary ++ ' ' :: fr.address
    | none => []
  | .backtraceResolved i f r _ _ =>
    let e := entries.getD i defaultEntry
    match e.backtrace.get? f with
    | some fr =>
      match fr.resolved with
      | some rfs =>
        match rfs.get? r with
        | some rf => rf.function ++ ' ' :: rf.file ++ ':' :: natToStr rf.line
        | none => []
      | none => []
    | none => []
  | .duration _ _ _ => []

/-- `App::ensure_visible` (app.rs lines 1778–1784). -/
def ensureVisible (app : App) : App :=
  if app.selected_line < app.scroll_offset then
    { app with scroll_offset := app.selected_line }
  else if app.scroll_offset + app.last_visible_height ≤ app.selected_line then
    { app with scroll_offset := app.selected_line - app.last_visible_height + 1 }
  else app

/-- One line of the match scan of `update_search_matches_internal`:
set the line's flag and push its index when its search text contains
the lowered query. -/
def searchStep (entries : List SyscallEntry) (ql : Str)
    (acc : List DisplayLine × List Nat × Nat) (l : DisplayLine) :
    List DisplayLine × List Nat × Nat :=
  let is_match := containsSub (lower (getLineText entries l)) ql
  (acc.1 ++ [l.setMatch is_match],
    (if is_match then acc.2.1 ++ [acc.2.2] else acc.2.1, acc.2.2 + 1))

/-- `App::update_search_matches_internal` (app.rs lines 1597–1726).
The two passes (collect match flags, then mark lines and push match
indices in order) are fused into one indexed fold with the same
result. -/
def updateSearchMatchesInternal (app : App) (move_cursor : Bool) : App :=
  let ss0 := { app.search_state with matchList := ([] : List Nat) }
  if app.search_state.query.isEmpty then
    { app with
      display_lines := app.display_lines.map (DisplayLine.setMatch · false)
      search_state := ss0 }
  else
    let ql := lower app.search_state.query
    let fin := app.display_lines.foldl (searchStep app.entries ql) ([], [], 0)
    let ss1 := { ss0 with matchList := fin.2.1 }
    let app1 := { app with display_lines := fin.1, search_state := ss1 }
    if ss1.matchList.isEmpty then app1
    else
      let match_idx := (ss1.matchList.findIdx? (fun i => app1.selected_line ≤ i)).getD 0
      let app2 :=
        { app1 with search_state := { ss1 with current_match_idx := match_idx } }
      if move_cursor then
        ensureVisible { app2 with selected_line := ss1.matchList.getD match_idx 0 }
      else app2

/-- The display lines of one entry (the body of the `for` loop of
`rebuild_display_lines`, app.rs lines 316–538). -/
def linesForEntry (expandedItems expandedArgs expandedBts : List Nat)
    (hidden : List Str) (showHidden : Bool) (idx : Nat) (e : SyscallEntry) :
    List DisplayLine :=
  let is_hidden := hidden.contains e.syscall_name
  if is_hidden && !showHidden then []
  else
    let header : List DisplayLine := [.syscallHeader idx is_hidden false]
    if !expandedItems.contains idx then header
    else
      let has_arguments := !e.arguments.isEmpty
      let has_return := e.return_value.isSome
      let has_error := e.errno.isSome
      let has_duration := e.duration.isSome
      let has_signal := e.signal.isSome
      let has_exit := e.exit_info.isSome
      let has_reference := e.unfinished_entry_idx.isSome || e.resumed_entry_idx.isSome
      let has_backtrace := !e.backtrace.isEmpty
      let b2n : Bool → Nat := fun b => if b then 1 else 0
      let o1 := 0
      let o2 := o1 + b2n has_arguments
      let o3 := o2 + b2n has_return
      let o4 := o3 + b2n has_error
      let o5 := o4 + b2n has_duration
      let o6 := o5 + b2n has_signal
      let o7 := o6 + b2n has_exit
      let o8 := o7 + b2n has_reference
      let total := o8 + b2n has_backtrace
      let base := emptyPfx
      let argLines : List DisplayLine :=
        if has_arguments then
          let is_last := o1 = total - 1
          let pfx := buildTreePfx base is_last
          let sub : List DisplayLine :=
            if expandedArgs.contains idx then
              let args := splitArguments e.arguments
              let nested := buildNestedPfx pfx is_last
              (List.range args.length).map (fun argIdx =>
                .argumentLine idx argIdx
                  (buildTreePfx nested (argIdx = args.length - 1)) false)
            else []
          .argumentsHeader idx pfx false :: sub
        else []
      let retLines : List DisplayLine :=
        if has_return then [.returnValue idx (buildTreePfx base (o2 = total - 1)) false]
        else []
      let errLines : List DisplayLine :=
        if has_error then [.error idx (buildTreePfx base (o3 = total - 1)) false]
        else []
      let durLines : List DisplayLine :=
        if has_duration then [.duration idx (buildTreePfx base (o4 = total - 1)) false]
        else []
      let sigLines : List DisplayLine :=
        if has_signal then [.signal idx (buildTreePfx base (o5 = total - 1)) false]
        else []
      let exitLines : List DisplayLine :=
        if has_exit then [.exit idx (buildTreePfx base (o6 = total - 1)) false]
        else []
      let refLines : List DisplayLine :=
        if has_reference then
          [.entryReference idx (buildTreePfx base (o7 = total - 1)) false]
        else []
      let btLines : List DisplayLine :=
        if has_backtrace then
          let is_last := o8 = total - 1
          let pfx := buildTreePfx base is_last
          let sub : List DisplayLine :=
            if expandedBts.contains idx then
              let nested := buildNestedPfx pfx is_last
              let allFrames : List (Nat × Option Nat) :=
                (List.range e.backtrace.length).flatMap (fun frameIdx =>
                  match (e.backtrace.getD frameIdx ⟨[], none, none, [], none⟩).resolved with
                  | some rfs =>
                    (List.range rfs.length).map (fun r => (frameIdx, some r))
                  | none => [(frameIdx, none)])
              (List.range allFrames.length).map (fun k =>
                let fr := allFrames.getD k (0, none)
                let itemPfx := buildTreePfx nested (k = allFrames.length - 1)
                match fr.2 with
                | some r => .backtraceResolved idx fr.1 r itemPfx false
                | none => .backtraceFrame idx fr.1 itemPfx false)
            else []
          .backtraceHeader idx pfx false :: sub
        else []
      header ++ argLines ++ retLines ++ errLines ++ durLines ++ sigLines ++
        exitLines ++ refLines ++ btLines

/-- The full display-line build: every entry in order. -/
def buildAllLines (app : App) : List DisplayLine :=
  (List.range app.entries.length).flatMap (fun idx =>
    linesForEntry app.expanded_items app.expanded_arguments
      app.expanded_backtraces app.hidden_syscalls app.show_hidden idx
      (app.entries.getD idx defaultEntry))

/-- The selection clamp of `rebuild_display_lines` (app.rs lines
540–543). -/
def rebuildClamp (app : App) : App :=
  if app.display_lines.length ≤ app.selected_line && !app.display_lines.isEmpty
  then { app with selected_line := app.display_lines.length - 1 }
  else app

/-- The search-match refresh of `rebuild_display_lines` (app.rs lines
545–548). -/
def rebuildSearchRefresh (app : App) : App :=
  if !app.search_state.matchList.isEmpty then updateSearchMatchesInternal app false
  else app

/-- The cursor relocation of `rebuild_display_lines` (app.rs lines
550–566), given the remembered entry index and on-screen row. -/
def rebuildRestore (cei : Option Nat) (csp : Nat) (app : App) : App :=
  match cei with
  | none => app
  | some entry_idx =>
    if (app.display_lines.get? app.selected_line).map (·.entryIdx) ≠ some entry_idx
    then
      let sel := (app.display_lines.findIdx? (fun l => entry_idx ≤ l.entryIdx)).getD 0
      { app with selected_line := sel, scroll_offset := sel - csp }
    else app

/-- `App::rebuild_display_lines` (app.rs lines 305–567): rebuild the
line list, clamp the selection, refresh active search matches, then
relocate the cursor to the remembered entry. -/
def rebuildDisplayLines (app : App) : App :=
  rebuildRestore ((app.display_lines.get? app.selected_line).map (·.entryIdx))
    (app.selected_line - app.scroll_offset)
    (rebuildSearchRefresh (rebuildClamp { app with display_lines := buildAllLines app }))

/-- `App::toggle_show_hidden` (app.rs lines 1309–1312). -/
def toggleShowHidden (app : App) : App :=
  rebuildDisplayLines { app with show_hidden := !app.show_hidden }

/-- The rendered text of a `Duration` display row (ui.rs lines
431–446): tree prefix, `Duration: `, the `{:.6}`-formatted seconds and
a trailing `s`.  The decimal formatting of the `f64` is a parameter;
nothing proved about this definition depends on it. -/
def durationRowText (fmtF64 : Str → Str) (entries : List SyscallEntry)
    (i : Nat) (pfx : TreePfx) : Str :=
  match (entries.getD i defaultEntry).duration with
  | some d => pfxToStr pfx ++ str "Duration: " ++ fmtF64 d ++ str "s"
  | none => []

/-! # Theorems

## Scenario inputs -/

/-- The spec's scenario 2 (unfinished + resumed interleave), with the
concrete timestamps of the repository's own integration test. -/
def scenario2Lines : List Str :=
  [str "12345 10:20:30 read(0 <unfinished ...>",
   str "12346 10:20:30 write(1, \"x\", 1) = 1",
   str "12345 10:20:31 <... read resumed>, \"data\", 4) = 4"]

/-- The spec's scenario 4 (resumed line with trailing arguments). -/
def scenario4Line : Str :=
  str "24982 12:58:40 <... wait4 resumed>, [\x7bWIFEXITED(s) && WEXITSTATUS(s) == 0\x7d], 0, NULL) = 24983"

/-- A stream in which a backtrace line follows a resume merge. -/
def scenario3Lines : List Str :=
  [str "12345 10:20:30 read(0 <unfinished ...>",
   str "12345 10:20:31 <... read resumed>) = 0",
   str " > /usr/lib/libc.so.6(__write+0x14) [0x10e53e]"]

instance {ε α : Type} [DecidableEq ε] [DecidableEq α] : DecidableEq (Except ε α) := fun x y =>
  match x, y with
  | .ok a, .ok b =>
    if h : a = b then isTrue (by rw [h]) else isFalse (by intro hh; cases hh; exact h rfl)
  | .error a, .error b =>
    if h : a = b then isTrue (by rw [h]) else isFalse (by intro hh; cases hh; exact h rfl)
  | .ok _, .error _ => isFalse (by intro hh; cases hh)
  | .error _, .ok _ => isFalse (by intro hh; cases hh)

set_option maxRecDepth 80000

/-! ## C9 — resumed-line argument extraction -/

/-- C9 (counterexample): on the scenario-4 resumed line the parsed
`arguments` do **not** begin with `[{WIFEXITED`: stripping the
`<... wait4 resumed>` continuation token leaves the leading `, `
in place, exactly as the repository's own `test_parse_wait4_resumed`
asserts. -/
theorem c9_counterexample :
    ((parseStraceLine scenario4Line).toOption.map
      (fun e => startsW e.arguments (str "[\x7bWIFEXITED"))) = some false := by
  decide

/-- C9 (amended): the scenario-4 resumed line parses to syscall
`wait4`, return value `24983`, and arguments equal to the text up to
the closing `)` before ` = ` with only the `<... wait4 resumed>` token
stripped — beginning with `, [{WIFEXITED`, the continuation comma
included. -/
theorem c9_theorem :
    parseStraceLine scenario4Line = .ok
      { SyscallEntry.new 24982 (str "12:58:40") (str "wait4") with
        is_resumed := true
        arguments := str ", [\x7bWIFEXITED(s) && WEXITSTATUS(s) == 0\x7d], 0, NULL)"
        return_value := some (str "24983") } := by
  decide

/-! ## C1 — the resume merge -/

/-- C1 (counterexample): after stitching scenario 2, the merged `read`
entry keeps its original arguments `0` — the resumed line's nonempty
arguments `, "data", 4)` are *not* concatenated onto it — and both
cross-reference fields are `none`. -/
theorem c1_counterexample :
    ((parseLines scenario2Lines).1.map
      (fun e => (e.arguments, e.unfinished_entry_idx, e.resumed_entry_idx))) =
      [(str "0", none, none), (str "1, \"x\", 1", none, none)] ∧
    ((parseStraceLine (str "12345 10:20:31 <... read resumed>, \"data\", 4) = 4")).toOption.map
      (fun e => e.arguments)) = some (str ", \"data\", 4)") := by
  constructor
  · decide
  · decide

/-- C1 (amended): when a resumed line finds a pending unfinished entry
for the same PID, the merge writes the resumed line's return value,
errno and duration into the original entry and clears `is_unfinished`
and `is_resumed`; every other field of the original — the arguments
included — is left unchanged, and no cross-references exist to be set. -/
theorem c1_theorem (s : LoopState) (line : Str) (entry orig : SyscallEntry)
    (uidx : Nat) (unf2 : List (Nat × Nat))
    (hne : (trim line).isEmpty = false)
    (hnb : startsW (trimStart line) (str ">") = false)
    (hp : parseStraceLine line = .ok entry)
    (hu : entry.is_unfinished = false)
    (hr : entry.is_resumed = true)
    (hrem : aRemove s.st.unfinished entry.pid = (some uidx, unf2))
    (hget : s.pushed.get? uidx = some orig) :
    (parseLinesStep s line).entries.get? uidx = some
      { orig with
        return_value := entry.return_value
        errno := entry.errno
        duration := entry.duration
        is_resumed := false
        is_unfinished := false } ∧
    (parseLinesStep s line).current = none ∧
    (parseLinesStep s line).st.unfinished = unf2 := by
  have hlt : uidx < s.pushed.length := (List.get?_eq_some.mp hget).1
  simp only [parseLinesStep, hne, hnb, hp, hu, hr, hrem, hget, Bool.false_eq_true,
    if_false, if_true, ite_true, ite_false]
  refine ⟨?_, trivial, trivial⟩
  simpa using List.getElem?_set_self (l := s.pushed) hlt

/-- The entry the resumed scenario-2 line parses to. -/
def scen2ResumedEntry : SyscallEntry :=
  { SyscallEntry.new 12345 (str "10:20:31") (str "read") with
    is_resumed := true
    arguments := str ", \"data\", 4)"
    return_value := some (str "4") }

/-- The pending unfinished `read` entry after the first two scenario-2
lines. -/
def scen2UnfinishedEntry : SyscallEntry :=
  { SyscallEntry.new 12345 (str "10:20:30") (str "read") with
    arguments := str "0"
    is_unfinished := true }

/-- C1 (witness): the amended merge theorem applied to the loop state
reached after the first two scenario-2 lines. -/
theorem c1_witness :
    (parseLinesStep (parseLinesFrom ⟨⟨[], [], 0⟩, [], none⟩ (scenario2Lines.take 2))
        (str "12345 10:20:31 <... read resumed>, \"data\", 4) = 4")).entries.get? 0 =
      some { scen2UnfinishedEntry with
        return_value := scen2ResumedEntry.return_value
        errno := scen2ResumedEntry.errno
        duration := scen2ResumedEntry.duration
        is_resumed := false
        is_unfinished := false } :=
  (c1_theorem (parseLinesFrom ⟨⟨[], [], 0⟩, [], none⟩ (scenario2Lines.take 2))
    (str "12345 10:20:31 <... read resumed>, \"data\", 4) = 4")
    scen2ResumedEntry scen2UnfinishedEntry 0 [] (by decide) (by decide) (by decide)
    (by decide) (by decide) (by decide) (by decide)).1

/-! ## C3 — backtrace lines and the current entry -/

/-- C3 (counterexample): in `scenario3Lines` the backtrace line follows
a resume merge, so `current_entry` is `None`: the frame — although it
parses perfectly on its own — is attached to no entry (the merged entry
keeps an empty backtrace) and no error is recorded. -/
theorem c3_counterexample :
    ((parseLines scenario3Lines).1.map (fun e => e.backtrace)) = [[]] ∧
    (parseLines scenario3Lines).2 = [] ∧
    parseBacktraceLine (str " > /usr/lib/libc.so.6(__write+0x14) [0x10e53e]") =
      .ok { binary := str "/usr/lib/libc.so.6", function := some (str "__write"),
            offset := some (str "0x14"), address := str "0x10e53e",
            resolved := none } := by
  refine ⟨by decide, by decide, by decide⟩

/-- C3 (amended): a line whose first non-whitespace character is `>`
is attached to the *still-open* entry only: when `current_entry` is
`None` (before any syscall line, after a resume merge, or after a
failed line) the line is skipped silently and no error is recorded;
when an entry is open, a parsed frame is appended to it and a parse
failure is recorded with the line number without aborting. -/
theorem c3_theorem (s : LoopState) (line : Str)
    (hne : (trim line).isEmpty = false)
    (hbt : startsW (trimStart line) (str ">") = true) :
    (s.current = none →
      parseLinesStep s line =
        { s with st := { s.st with line_number := s.st.line_number + 1 } }) ∧
    (∀ entry frame, s.current = some entry →
      parseBacktraceLine line = .ok frame →
      parseLinesStep s line =
        { s with
          st := { s.st with line_number := s.st.line_number + 1 }
          current := some { entry with backtrace := entry.backtrace ++ [frame] } }) ∧
    (∀ entry e, s.current = some entry →
      parseBacktraceLine line = .error e →
      parseLinesStep s line =
        { s with st :=
          { s.st with
            line_number := s.st.line_number + 1
            errors := s.st.errors ++ [(s.st.line_number + 1, e)] } }) := by
  refine ⟨fun hc => ?_, fun entry frame hc hf => ?_, fun entry e hc hf => ?_⟩
  · simp only [parseLinesStep, hne, hbt, hc, Bool.false_eq_true, if_false,
      if_true, ite_true, ite_false]
  · simp only [parseLinesStep, hne, hbt, hc, hf, Bool.false_eq_true, if_false,
      if_true, ite_true, ite_false]
  · simp only [parseLinesStep, hne, hbt, hc, hf, Bool.false_eq_true, if_false,
      if_true, ite_true, ite_false]

/-- C3 (witness): the no-open-entry case of the amended theorem at the
state reached after the first two scenario-3 lines. -/
theorem c3_witness :
    parseLinesStep (parseLinesFrom ⟨⟨[], [], 0⟩, [], none⟩ (scenario3Lines.take 2))
        (str " > /usr/lib/libc.so.6(__write+0x14) [0x10e53e]") =
      { parseLinesFrom ⟨⟨[], [], 0⟩, [], none⟩ (scenario3Lines.take 2) with
        st := { (parseLinesFrom ⟨⟨[], [], 0⟩, [], none⟩ (scenario3Lines.take 2)).st with
          line_number :=
            (parseLinesFrom ⟨⟨[], [], 0⟩, [], none⟩ (scenario3Lines.take 2)).st.line_number + 1 } } :=
  (c3_theorem (parseLinesFrom ⟨⟨[], [], 0⟩, [], none⟩ (scenario3Lines.take 2))
    (str " > /usr/lib/libc.so.6(__write+0x14) [0x10e53e]")
    (by decide) (by decide)).1 (by decide)

/-! ## C4 — backtrace frame addresses -/

/-- C4 (counterexample): `parse_backtrace_line` accepts a line with no
bracketed address at all, producing a frame whose `address` is the
empty string (which does not match `^0x[0-9a-f]+$`), and it also
accepts upper-case hex digits. -/
theorem c4_counterexample :
    parseBacktraceLine (str "> /bin/foo(bar+0x1)") =
      .ok ⟨str "/bin/foo", some (str "bar"), some (str "0x1"), [], none⟩ ∧
    parseBacktraceLine (str "> b [0xAB]") =
      .ok ⟨str "b", none, none, str "0xAB", none⟩ := by
  refine ⟨by decide, by decide⟩

/-- `0x` followed by one or more hex digits of either case. -/
def isHexAddr (s : Str) : Bool :=
  match s with
  | '0' :: 'x' :: r => !r.isEmpty && r.all isHexD
  | _ => false

/-- A successful `take_while1` match is nonempty and all-satisfying. -/
theorem takeWhile1_spec (p : Char → Bool) (s m r : Str)
    (h : takeWhile1 p s = some (m, r)) :
    m.isEmpty = false ∧ m.all p = true := by
  unfold takeWhile1 at h
  by_cases he : (s.takeWhile p).isEmpty = true
  · simp [he] at h
  · rw [if_neg he] at h
    cases h
    exact ⟨by simpa using he,
      List.all_eq_true.mpr (fun c hc => List.mem_takeWhile_imp hc)⟩

/-- `parse_address` only ever produces well-shaped addresses. -/
theorem parseAddress_hex (input a r : Str) (h : parseAddress input = some (a, r)) :
    isHexAddr a = true := by
  unfold parseAddress at h
  split at h
  next r3 heq =>
    split at h
    next hr htw =>
      obtain ⟨hne, hall⟩ := takeWhile1_spec _ _ _ _ (by rw [htw])
      split at h
      next r5 heq2 =>
        cases h
        simp [isHexAddr, hne, hall]
      next => cases h
    next => cases h
  next => cases h

/-- `parse_frame`'s function-info arm also only yields the empty or a
well-shaped address, given that the incoming frame's address is empty. -/
theorem parseFrameFn_addr (f0 f : BacktraceFrame) (rest : Str)
    (h0 : f0.address = []) (h : parseFrameFn f0 rest = some f) :
    f.address = [] ∨ isHexAddr f.address = true := by
  unfold parseFrameFn at h
  split at h
  next =>
    split at h
    next fir =>
      split at h
      next ar hpa =>
        simp only [Option.some.injEq] at h
        subst h
        exact Or.inr (parseAddress_hex _ _ _ hpa)
      next =>
        simp only [Option.some.injEq] at h
        subst h
        exact Or.inl h0
    next => cases h
  next => cases h

/-- C4 (amended): every frame a successfully parsed backtrace line
produces has either the empty address (no bracketed address was found;
the line is accepted regardless) or an address matching
`0x[0-9A-Fa-f]+` — upper-case hex digits included. -/
theorem c4_theorem (line : Str) (frame : BacktraceFrame)
    (h : parseBacktraceLine line = .ok frame) :
    frame.address = [] ∨ isHexAddr frame.address = true := by
  unfold parseBacktraceLine at h
  split at h
  next r heq =>
    cases hpf : parseFrame (trimStart r) with
    | none => rw [hpf] at h; cases h
    | some f =>
      rw [hpf] at h
      cases h
      unfold parseFrame at hpf
      split at hpf
      next => cases hpf
      next br hta =>
        cases hfn : parseFrameFn (frame0 br.1) br.2 with
        | some f2 =>
          rw [hfn] at hpf
          simp only [Option.some.injEq] at hpf
          subst hpf
          exact parseFrameFn_addr _ _ _ rfl hfn
        | none =>
          rw [hfn] at hpf
          cases hpa : parseAddress br.2 with
          | some ar =>
            rw [hpa] at hpf
            simp only [Option.some.injEq] at hpf
            subst hpf
            exact Or.inr (parseAddress_hex _ _ _ hpa)
          | none =>
            rw [hpa] at hpf
            simp only [Option.some.injEq] at hpf
            subst hpf
            exact Or.inl rfl
  next => cases h

/-- C4 (witness): the amended theorem applied to a concrete accepted
line with no bracketed address. -/
theorem c4_witness :
    (⟨str "/bin/foo", some (str "bar"), some (str "0x1"), [], none⟩ :
        BacktraceFrame).address = [] ∨
      isHexAddr (⟨str "/bin/foo", some (str "bar"), some (str "0x1"), [],
        none⟩ : BacktraceFrame).address = true :=
  c4_theorem (str "> /bin/foo(bar+0x1)") _ (by decide)

/-! ## C2 — the argument scanner -/

/-- The argument scanner as the specification words it ("tracks depth
over `(){}[]` and ignores brackets inside double-quoted strings (with
backslash escapes)"): written from the spec's words, for comparison
with `parseArguments`, which is translated from the code. -/
def specFindClose : Str → Int → Bool → Bool → Option Nat
  | [], _, _, _ => none
  | c :: t, depth, inStr, esc =>
    if esc then (specFindClose t depth inStr false).map (· + 1)
    else if c = '\\' then (specFindClose t depth inStr true).map (· + 1)
    else if c = '"' then (specFindClose t depth (!inStr) false).map (· + 1)
    else if (c = '(' || c = '\x7b' || c = '[') && !inStr then
      (specFindClose t (depth + 1) inStr false).map (· + 1)
    else if (c = ')' || c = '\x7d' || c = ']') && !inStr then
      if depth - 1 = 0 then some 0
      else (specFindClose t (depth - 1) inStr false).map (· + 1)
    else (specFindClose t depth inStr false).map (· + 1)

/-- The spec's version of the argument extraction step. -/
def specArguments (input : Str) : Option (Str × Str) :=
  match dropSpace input with
  | '(' :: rest =>
    match specFindClose rest 1 false false with
    | some endPos => some (rest.take endPos, rest.drop (endPos + 1))
    | none => none
  | _ => none

/-- C2 (counterexample): on `("x)y", 1) = 3` the code's scanner stops
at the `)` *inside* the quoted string, returning arguments `"x`,
whereas the scanner the spec describes would return `"x)y", 1`. -/
theorem c2_counterexample :
    parseArguments (str "(\"x)y\", 1) = 3") = some (str "\"x", str "y\", 1) = 3") ∧
    specArguments (str "(\"x)y\", 1) = 3") = some (str "\"x)y\", 1", str " = 3") := by
  refine ⟨by decide, by decide⟩

/-- The parenthesis-only balance: `(` count minus `)` count. -/
def parenBal (s : Str) : Int :=
  (s.countP (· = '(') : Int) - (s.countP (· = ')') : Int)

theorem parenBal_nil : parenBal [] = 0 := rfl

theorem parenBal_cons_open (t : Str) : parenBal ('(' :: t) = 1 + parenBal t := by
  simp only [parenBal, List.countP_cons]
  rw [if_pos (by decide), if_neg (by decide)]
  push_cast
  ring

theorem parenBal_cons_close (t : Str) : parenBal (')' :: t) = parenBal t - 1 := by
  simp only [parenBal, List.countP_cons]
  rw [if_neg (by decide), if_pos (by decide)]
  push_cast
  ring

theorem parenBal_cons_other (c : Char) (t : Str) (h1 : ¬c = '(') (h2 : ¬c = ')') :
    parenBal (c :: t) = parenBal t := by
  simp only [parenBal, List.countP_cons]
  rw [if_neg (by simpa using h1), if_neg (by simpa using h2)]
  push_cast
  ring

/-- The closing-scan characterization, `some` case: the index found by
`findCloseParen` is the first position at which the parenthesis-only
depth reaches zero, and it holds a `)`. -/
theorem findCloseParen_some (cs : Str) :
    ∀ (d : Int) (n : Nat), 0 < d → findCloseParen cs d = some n →
      n < cs.length ∧ cs.getD n ' ' = ')' ∧ d + parenBal (cs.take (n + 1)) = 0 ∧
        ∀ k, k ≤ n → 0 < d + parenBal (cs.take k) := by
  induction cs with
  | nil => intro d n _ h; cases h
  | cons c t ih =>
    intro d n hd h
    unfold findCloseParen at h
    by_cases hc1 : c = '('
    · subst hc1
      rw [if_pos rfl, Option.map_eq_some'] at h
      obtain ⟨m, hm, hn⟩ := h
      obtain ⟨h1, h2, h3, h4⟩ := ih (d + 1) m (by omega) hm
      subst hn
      refine ⟨by simpa using h1, by simpa using h2, ?_, ?_⟩
      · rw [List.take_succ_cons, parenBal_cons_open]
        omega
      · intro k hk
        cases k with
        | zero => simpa [parenBal_nil] using hd
        | succ j =>
          rw [List.take_succ_cons, parenBal_cons_open]
          have := h4 j (by omega)
          omega
    · by_cases hc2 : c = ')'
      · subst hc2
        rw [if_neg hc1, if_pos rfl] at h
        by_cases hz : d - 1 = 0
        · rw [if_pos hz] at h
          cases h
          refine ⟨by simp, by simp, ?_, ?_⟩
          · rw [List.take_succ_cons, List.take_zero, parenBal_cons_close,
              parenBal_nil]
            omega
          · intro k hk
            have hk0 : k = 0 := Nat.le_zero.mp hk
            subst hk0
            simpa [parenBal_nil] using hd
        · rw [if_neg hz, Option.map_eq_some'] at h
          obtain ⟨m, hm, hn⟩ := h
          obtain ⟨h1, h2, h3, h4⟩ := ih (d - 1) m (by omega) hm
          subst hn
          refine ⟨by simpa using h1, by simpa using h2, ?_, ?_⟩
          · rw [List.take_succ_cons, parenBal_cons_close]
            omega
          · intro k hk
            cases k with
            | zero => simpa [parenBal_nil] using hd
            | succ j =>
              rw [List.take_succ_cons, parenBal_cons_close]
              have := h4 j (by omega)
              omega
      · rw [if_neg hc1, if_neg hc2, Option.map_eq_some'] at h
        obtain ⟨m, hm, hn⟩ := h
        obtain ⟨h1, h2, h3, h4⟩ := ih d m hd hm
        subst hn
        refine ⟨by simpa using h1, by simpa using h2, ?_, ?_⟩
        · rw [List.take_succ_cons, parenBal_cons_other c _ hc1 hc2]
          omega
        · intro k hk
          cases k with
          | zero => simpa [parenBal_nil] using hd
          | succ j =>
            rw [List.take_succ_cons, parenBal_cons_other c _ hc1 hc2]
            have := h4 j (by omega)
            omega

/-- The closing-scan characterization, `none` case: the depth stays
positive on every prefix. -/
theorem findCloseParen_none (cs : Str) :
    ∀ (d : Int), 0 < d → findCloseParen cs d = none →
      ∀ k, k ≤ cs.length → 0 < d + parenBal (cs.take k) := by
  induction cs with
  | nil =>
    intro d hd _ k hk
    have hk0 : k = 0 := Nat.le_zero.mp hk
    subst hk0
    simpa [parenBal_nil] using hd
  | cons c t ih =>
    intro d hd h k hk
    unfold findCloseParen at h
    cases k with
    | zero => simpa [parenBal_nil] using hd
    | succ j =>
      rw [List.take_succ_cons]
      by_cases hc1 : c = '('
      · subst hc1
        rw [if_pos rfl, Option.map_eq_none'] at h
        rw [parenBal_cons_open]
        have := ih (d + 1) (by omega) h j (by simpa using hk)
        omega
      · by_cases hc2 : c = ')'
        · subst hc2
          rw [if_neg hc1, if_pos rfl] at h
          by_cases hz : d - 1 = 0
          · rw [if_pos hz] at h; cases h
          · rw [if_neg hz, Option.map_eq_none'] at h
            rw [parenBal_cons_close]
            have := ih (d - 1) (by omega) h j (by simpa using hk)
            omega
        · rw [if_neg hc1, if_neg hc2, Option.map_eq_none'] at h
          rw [parenBal_cons_other c _ hc1 hc2]
          have := ih d hd h j (by simpa using hk)
          omega

/-- C2 (amended): on a regular syscall line (no `<unfinished` token in
scope), the scanner assigns to `arguments` exactly the text up to the
first `)` at which the **parenthesis-only** depth reaches zero — `{}`,
`[]` and quoted strings are not tracked — or the entire remainder when
the parentheses never close. -/
theorem c2_theorem (rest args tail : Str)
    (hu : containsSub rest (str "<unfinished") = false)
    (h : parseArgumentsCore rest = (args, tail)) :
    (∃ n, args = rest.take n ∧ tail = rest.drop (n + 1) ∧
      rest.getD n ' ' = ')' ∧ 1 + parenBal (rest.take (n + 1)) = 0 ∧
      ∀ k, k ≤ n → 0 < 1 + parenBal (rest.take k)) ∨
    (args = rest ∧ tail = [] ∧
      ∀ k, k ≤ rest.length → 0 < 1 + parenBal (rest.take k)) := by
  have hsf : subFind rest (str "<unfinished") = none := by
    cases hq : subFind rest (str "<unfinished") with
    | none => rfl
    | some m => simp [containsSub, hq] at hu
  unfold parseArgumentsCore at h
  rw [hsf] at h
  cases hfc : findCloseParen rest 1 with
  | some n =>
    rw [hfc] at h
    cases h
    obtain ⟨h1, h2, h3, h4⟩ := findCloseParen_some rest 1 n (by decide) hfc
    exact Or.inl ⟨n, rfl, rfl, h2, h3, h4⟩
  | none =>
    rw [hfc] at h
    cases h
    exact Or.inr ⟨rfl, rfl, findCloseParen_none rest 1 (by decide) hfc⟩

/-- C2 (witness): the amended theorem at the concrete input
`(a(b)c) = 7`. -/
theorem c2_witness :
    (∃ n, str "a(b)c" = (str "a(b)c) = 7").take n ∧
      str " = 7" = (str "a(b)c) = 7").drop (n + 1) ∧
      (str "a(b)c) = 7").getD n ' ' = ')' ∧
      1 + parenBal ((str "a(b)c) = 7").take (n + 1)) = 0 ∧
      ∀ k, k ≤ n → 0 < 1 + parenBal ((str "a(b)c) = 7").take k)) ∨
    (str "a(b)c" = str "a(b)c) = 7" ∧ str " = 7" = [] ∧
      ∀ k, k ≤ (str "a(b)c) = 7").length →
        0 < 1 + parenBal ((str "a(b)c) = 7").take k)) :=
  c2_theorem (str "a(b)c) = 7") (str "a(b)c") (str " = 7")
    (by decide) (by decide)

/-! ## C5 — resolver failure caching -/

/-- A lookup in a map just written at the same key returns the written
value. -/
theorem aLookup_aInsert_self {κ ν : Type} [DecidableEq κ]
    (l : List (κ × ν)) (k : κ) (v : ν) : aLookup (aInsert l k v) k = some v := by
  induction l with
  | nil => simp [aInsert, aLookup]
  | cons p t ih =>
    obtain ⟨k', v'⟩ := p
    by_cases h : k' = k
    · subst h; simp [aInsert, aLookup]
    · simp [aInsert, aLookup, h, ih]

/-- An addr2line environment in which every loader construction fails. -/
def failEnv : Addr2LineEnv := ⟨fun _ => none, fun _ _ => none⟩

/-- Two frames of the same binary at different addresses. -/
def frameB1 : BacktraceFrame := ⟨str "b", none, none, str "0x1", none⟩

def frameB2 : BacktraceFrame := ⟨str "b", none, none, str "0x2", none⟩

/-- C5 (counterexample): when loader construction fails for binary
`b`, nothing is stored in the loader cache (`loaders = []`), and a
later resolve for the *same binary at a different address* invokes the
constructor again: `ctorCalls` (the observer counting
`addr2line::Loader::new` invocations) rises from 1 to 2. -/
theorem c5_counterexample :
    (resolveFrame failEnv ResolverState.new frameB1).2.ctorCalls = 1 ∧
    (resolveFrame failEnv ResolverState.new frameB1).2.loaders = [] ∧
    (resolveFrame failEnv
      (resolveFrame failEnv ResolverState.new frameB1).2 frameB2).2.ctorCalls = 2 := by
  refine ⟨by decide, by decide, by decide⟩

/-- C5 (amended): the failure is cached only in the per-
`(binary, address)` result cache: repeating `resolve_frame` on the same
frame returns the same result and leaves the resolver state — the
constructor-call count included — unchanged, whatever the environment;
construction *is* retried for the same binary at a new address (see the
counterexample). -/
theorem c5_theorem (env : Addr2LineEnv) (rs : ResolverState) (frame : BacktraceFrame) :
    (resolveFrame env (resolveFrame env rs frame).2 frame).2 =
      (resolveFrame env rs frame).2 ∧
    (resolveFrame env (resolveFrame env rs frame).2 frame).1 =
      (resolveFrame env rs frame).1 := by
  cases hl : aLookup rs.cache (cacheKey frame) with
  | some cached =>
    simp only [resolveFrame, hl]
    exact ⟨trivial, trivial⟩
  | none =>
    simp only [resolveFrame, hl, aLookup_aInsert_self]
    exact ⟨trivial, trivial⟩

/-! ## C7 — the view-model invariants after a rebuild -/

/-- The match scan appends exactly one display line per input line. -/
theorem searchFold_len (entries : List SyscallEntry) (ql : Str) :
    ∀ (ls : List DisplayLine) (acc : List DisplayLine × List Nat × Nat),
      ((ls.foldl (searchStep entries ql) acc).1).length = acc.1.length + ls.length := by
  intro ls
  induction ls with
  | nil => intro acc; simp
  | cons l t ih =>
    intro acc
    rw [List.foldl_cons, ih]
    simp [searchStep]
    omega

/-- The search refresh moves neither the cursor nor a line: with
`move_cursor = false` the selection, the scroll offset and the number
of display lines are unchanged. -/
theorem updateSearch_stable (app : App) :
    (updateSearchMatchesInternal app false).selected_line = app.selected_line ∧
    (updateSearchMatchesInternal app false).scroll_offset = app.scroll_offset ∧
    (updateSearchMatchesInternal app false).display_lines.length =
      app.display_lines.length := by
  unfold updateSearchMatchesInternal
  by_cases hq : app.search_state.query.isEmpty = true
  · simp [hq]
  · simp only [hq, Bool.false_eq_true, if_false, ite_false]
    set fin := app.display_lines.foldl
      (searchStep app.entries (lower app.search_state.query)) ([], [], 0) with hfin
    by_cases hm : fin.2.1.isEmpty = true
    · simp only [hm, if_true, ite_true]
      refine ⟨trivial, trivial, ?_⟩
      rw [hfin, searchFold_len]
      simp
    · simp only [hm, Bool.false_eq_true, if_false, ite_false]
      refine ⟨trivial, trivial, ?_⟩
      rw [hfin, searchFold_len]
      simp

/-- Stage lemma: the clamp leaves the line list alone and lands the
selection inside it whenever it is nonempty. -/
theorem rebuildClamp_sel (app : App) (h : app.display_lines ≠ []) :
    (rebuildClamp app).display_lines = app.display_lines ∧
    (rebuildClamp app).selected_line < app.display_lines.length := by
  unfold rebuildClamp
  have hlen : 0 < app.display_lines.length := List.length_pos.mpr h
  by_cases hc : app.display_lines.length ≤ app.selected_line
  · rw [if_pos (by simp [hc, h])]
    exact ⟨rfl, by simpa using Nat.sub_lt hlen Nat.one_pos⟩
  · rw [if_neg (by simp [hc])]
    exact ⟨rfl, by omega⟩

/-- Stage lemma: the search refresh preserves the selection and the
length of the line list. -/
theorem rebuildSearchRefresh_sel (app : App) :
    (rebuildSearchRefresh app).selected_line = app.selected_line ∧
    (rebuildSearchRefresh app).display_lines.length =
      app.display_lines.length := by
  unfold rebuildSearchRefresh
  by_cases hm : app.search_state.matchList.isEmpty = true
  · simp [hm]
  · simp only [hm, Bool.not_false, Bool.false_eq_true, if_true, ite_true]
    obtain ⟨h1, -, h3⟩ := updateSearch_stable app
    exact ⟨h1, h3⟩

/-- The cursor relocation never touches the display lines. -/
theorem rebuildRestore_lines (cei : Option Nat) (csp : Nat) (app : App) :
    (rebuildRestore cei csp app).display_lines = app.display_lines := by
  unfold rebuildRestore
  cases cei with
  | none => rfl
  | some entry_idx =>
    dsimp only
    split
    · rfl
    · rfl

/-- The clamp never touches the display lines. -/
theorem rebuildClamp_lines (app : App) :
    (rebuildClamp app).display_lines = app.display_lines := by
  unfold rebuildClamp
  split
  · rfl
  · rfl

/-- Stage lemma: the cursor relocation keeps the selection inside a
nonempty line list. -/
theorem rebuildRestore_sel (cei : Option Nat) (csp : Nat) (app : App)
    (hne : app.display_lines ≠ []) (hsel : app.selected_line < app.display_lines.length) :
    (rebuildRestore cei csp app).selected_line < app.display_lines.length := by
  unfold rebuildRestore
  cases cei with
  | none => exact hsel
  | some entry_idx =>
    dsimp only
    by_cases hx : (app.display_lines.get? app.selected_line).map (·.entryIdx) ≠ some entry_idx
    · rw [if_pos hx]
      show ((app.display_lines.findIdx? (fun l => entry_idx ≤ l.entryIdx)).getD 0) <
        app.display_lines.length
      cases hf : app.display_lines.findIdx? (fun l => entry_idx ≤ l.entryIdx) with
      | some i =>
        simp only [hf, Option.getD_some]
        exact (List.findIdx?_eq_some_iff_findIdx_eq.mp hf).1
      | none =>
        simp only [hf, Option.getD_none]
        exact List.length_pos.mpr hne
    · rw [if_neg hx]
      exact hsel

/-- C7 (amended): after every `rebuild_display_lines`,
`selected_line < len(display_lines)` holds whenever the list is
nonempty; the bound `scroll_offset ≤ max(0, len − visible_height)` is
*not* restored by the rebuild (see the counterexample). -/
theorem c7_theorem (app : App) (h : (rebuildDisplayLines app).display_lines ≠ []) :
    (rebuildDisplayLines app).selected_line <
      (rebuildDisplayLines app).display_lines.length := by
  unfold rebuildDisplayLines at h ⊢
  set app1 : App := { app with display_lines := buildAllLines app } with happ1
  rw [rebuildRestore_lines] at h ⊢
  have hlenS := (rebuildSearchRefresh_sel (rebuildClamp app1)).2
  have hne1 : app1.display_lines ≠ [] := by
    intro hq
    apply h
    have hz : (rebuildSearchRefresh (rebuildClamp app1)).display_lines.length = 0 := by
      rw [hlenS, rebuildClamp_lines, hq]
      rfl
    exact List.length_eq_zero.mp hz
  obtain ⟨hc1, hc2⟩ := rebuildClamp_sel app1 hne1
  have hsel2 : (rebuildSearchRefresh (rebuildClamp app1)).selected_line <
      (rebuildSearchRefresh (rebuildClamp app1)).display_lines.length := by
    rw [(rebuildSearchRefresh_sel (rebuildClamp app1)).1, hlenS, rebuildClamp_lines]
    exact hc2
  exact rebuildRestore_sel _ _ _ h hsel2

/-- The entries of the C7 counterexample state: three of a hidden
syscall name and one visible. -/
def entA : SyscallEntry := SyscallEntry.new 7 [] (str "a")

def entB : SyscallEntry := SyscallEntry.new 7 [] (str "b")

/-- A ghost-mode view state: syscall `a` is hidden but shown dimmed,
the cursor sits on the last of 4 header lines with the view scrolled to
the bottom (`scroll_offset = 2 = max_scroll` for height 2). -/
def c7AppPre : App where
  entries := [entA, entA, entA, entB]
  display_lines := []
  selected_line := 3
  scroll_offset := 2
  expanded_items := []
  expanded_arguments := []
  expanded_backtraces := []
  last_visible_height := 2
  hidden_syscalls := [str "a"]
  show_hidden := true
  search_state := SearchState.init

/-- The C7 counterexample state with its display lines built. -/
def c7App : App := { c7AppPre with display_lines := buildAllLines c7AppPre }

/-- C7 (counterexample): the state before the toggle satisfies both
claimed bounds, but after the ghost-mode toggle (a rebuild trigger the
claim itself lists) the line list shrinks to 1 while `scroll_offset`
stays 2 — violating `scroll_offset ≤ max(0, len − visible_height) = 0`. -/
theorem c7_counterexample :
    (c7App.selected_line < c7App.display_lines.length ∧
      c7App.scroll_offset ≤
        max 0 (c7App.display_lines.length - c7App.last_visible_height)) ∧
    (toggleShowHidden c7App).display_lines.length = 1 ∧
    (toggleShowHidden c7App).last_visible_height = 2 ∧
    ¬((toggleShowHidden c7App).scroll_offset ≤
      max 0 ((toggleShowHidden c7App).display_lines.length -
        (toggleShowHidden c7App).last_visible_height)) := by
  refine ⟨by decide, by decide, by decide, by decide⟩

/-- C7 (witness): the amended theorem at the concrete ghost-mode
state. -/
theorem c7_witness :
    (rebuildDisplayLines c7App).selected_line <
      (rebuildDisplayLines c7App).display_lines.length :=
  c7_theorem c7App (by decide)

/-! ## C8 — search matches and line text -/

/-- The default line used for in-range indexed access. -/
def dfltLine : DisplayLine := .syscallHeader 0 false false

/-- The indices, offset by `k`, of the lines whose search text contains
the lowered query. -/
def matchIdxs (entries : List SyscallEntry) (ql : Str) :
    List DisplayLine → Nat → List Nat
  | [], _ => []
  | l :: t, k =>
    (if containsSub (lower (getLineText entries l)) ql then [k] else []) ++
      matchIdxs entries ql t (k + 1)

/-- The match-index component of the scan fold. -/
theorem searchFold_matches (entries : List SyscallEntry) (ql : Str) :
    ∀ (ls : List DisplayLine) (acc : List DisplayLine × List Nat × Nat),
      (ls.foldl (searchStep entries ql) acc).2.1 =
        acc.2.1 ++ matchIdxs entries ql ls acc.2.2 := by
  intro ls
  induction ls with
  | nil => intro acc; simp [matchIdxs]
  | cons l t ih =>
    intro acc
    rw [List.foldl_cons, ih]
    unfold matchIdxs
    by_cases hm : containsSub (lower (getLineText entries l)) ql = true
    · simp [searchStep, hm]
      cases t with
      | nil => rfl
      | cons a b => rfl
    · simp [searchStep, hm]
      cases t with
      | nil => rfl
      | cons a b => rfl

/-- `matchIdxs` is the shifted filter of the index range. -/
theorem matchIdxs_eq_filter (entries : List SyscallEntry) (ql : Str) :
    ∀ (ls : List DisplayLine) (k : Nat),
      matchIdxs entries ql ls k =
        ((List.range ls.length).filter
          (fun i => containsSub (lower (getLineText entries (ls.getD i dfltLine))) ql)).map
          (· + k) := by
  intro ls
  induction ls with
  | nil => intro k; simp [matchIdxs]
  | cons l t ih =>
    intro k
    unfold matchIdxs
    rw [ih (k + 1), List.length_cons, List.range_succ_eq_map, List.filter_cons]
    have hfil : List.filter
        (fun i => containsSub (lower (getLineText entries ((l :: t).getD i dfltLine))) ql)
        (List.map Nat.succ (List.range t.length)) =
        List.map Nat.succ (List.filter
          (fun i => containsSub (lower (getLineText entries (t.getD i dfltLine))) ql)
          (List.range t.length)) := by
      rw [List.filter_map]
      exact congrArg (List.map Nat.succ)
        (List.filter_congr (fun i _ => by simp [Function.comp, List.getD_cons_succ]))
    by_cases hm : containsSub (lower (getLineText entries l)) ql = true
    · rw [if_pos hm, List.singleton_append]
      rw [if_pos (show containsSub
        (lower (getLineText entries ((l :: t).getD 0 dfltLine))) ql = true from hm)]
      rw [hfil, List.map_cons, List.map_map]
      congr 1
      · simp
      · apply List.map_congr_left
        intro i _
        simp only [Function.comp_apply, Nat.succ_eq_add_one]
        omega
    · rw [if_neg hm, List.nil_append]
      rw [if_neg (show ¬containsSub
        (lower (getLineText entries ((l :: t).getD 0 dfltLine))) ql = true from hm)]
      rw [hfil, List.map_map]
      apply List.map_congr_left
      intro i _
      simp only [Function.comp_apply, Nat.succ_eq_add_one]
      omega

/-- C8 (amended): for every nonempty query, the match list equals
exactly the set of display-line indices whose `get_line_text` — the
search text, not the rendered row text — contains the query
case-insensitively; duration rows have empty search text and therefore
never match. -/
theorem c8_theorem (app : App) (mc : Bool) (hq : app.search_state.query ≠ []) :
    (updateSearchMatchesInternal app mc).search_state.matchList =
      (List.range app.display_lines.length).filter
        (fun i => containsSub
          (lower (getLineText app.entries (app.display_lines.getD i dfltLine)))
          (lower app.search_state.query)) := by
  unfold updateSearchMatchesInternal
  have hqe : app.search_state.query.isEmpty = false := by
    cases hql : app.search_state.query with
    | nil => exact absurd hql hq
    | cons c t => rfl
  simp only [hqe, Bool.false_eq_true, if_false, ite_false]
  set ql := lower app.search_state.query with hql
  have hfold := searchFold_matches app.entries ql app.display_lines ([], [], 0)
  have hmi := matchIdxs_eq_filter app.entries ql app.display_lines 0
  by_cases hm : (app.display_lines.foldl (searchStep app.entries ql) ([], [], 0)).2.1.isEmpty = true
  · simp only [hm, if_true, ite_true]
    rw [hfold, hmi]
    simp
  · simp only [hm, Bool.false_eq_true, if_false, ite_false]
    by_cases hmc : mc = true
    · simp only [hmc, if_true, ite_true]
      unfold ensureVisible
      split
      · rw [hfold, hmi]
        simp
      · split
        · rw [hfold, hmi]
          simp
        · rw [hfold, hmi]
          simp
    · simp only [hmc, Bool.false_eq_true, if_false, ite_false]
      rw [hfold, hmi]
      simp

/-- The entry of the C8 counterexample: a `write` with a duration. -/
def entD : SyscallEntry :=
  { SyscallEntry.new 1 [] (str "write") with
    duration := some (str "0.000123")
    arguments := str "1"
    return_value := some (str "6") }

/-- A view state whose single entry is expanded (header, arguments
header, return row, duration row) with the pending query `duration`. -/
def c8AppPre : App where
  entries := [entD]
  display_lines := []
  selected_line := 0
  scroll_offset := 0
  expanded_items := [0]
  expanded_arguments := []
  expanded_backtraces := []
  last_visible_height := 10
  hidden_syscalls := []
  show_hidden := false
  search_state := { SearchState.init with query := str "duration" }

/-- The C8 counterexample state with its display lines built. -/
def c8App : App := { c8AppPre with display_lines := buildAllLines c8AppPre }

/-- The tree prefix of the duration row in `c8App` (the duration is the
last of three children). -/
def c8DurPfx : TreePfx := [.lastBranch, .null, .null, .null]

/-- C8 (counterexample): display line 3 of `c8App` is the duration row;
its rendered text (ui.rs 431–446) contains the query `duration`
case-insensitively — for any formatting of the seconds — yet the
computed match list is empty, because `get_line_text` returns the empty
string for duration rows. -/
theorem c8_counterexample :
    c8App.display_lines.get? 3 = some (.duration 0 c8DurPfx false) ∧
    containsSub (lower (durationRowText (fun _ => str "0.000123") c8App.entries 0 c8DurPfx))
      (lower (str "duration")) = true ∧
    c8App.search_state.query = str "duration" ∧
    (updateSearchMatchesInternal c8App true).search_state.matchList = [] := by
  refine ⟨by decide, by decide, by decide, by decide⟩

/-- C8 (witness): the amended theorem at the concrete duration-row
state. -/
theorem c8_witness :
    (updateSearchMatchesInternal c8App true).search_state.matchList =
      (List.range c8App.display_lines.length).filter
        (fun i => containsSub
          (lower (getLineText c8App.entries (c8App.display_lines.getD i dfltLine)))
          (lower c8App.search_state.query)) :=
  c8_theorem c8App true (by decide)

/-! ### C10: `split_arguments` output shape -/

/-- `dropWhile` is idempotent. -/
theorem dropWhile_self_idem {α} (p : α → Bool) (l : List α) :
    (l.dropWhile p).dropWhile p = l.dropWhile p := by
  induction l with
  | nil => rfl
  | cons a l ih =>
    by_cases h : p a = true
    · simp only [List.dropWhile_cons, h, if_true]
      exact ih
    · simp [List.dropWhile_cons, h]

/-- `dropWhile` commutes with appending an element the predicate rejects. -/
theorem dropWhile_append_one {α} (p : α → Bool) (h : α) (hh : p h = false) (l : List α) :
    (l ++ [h]).dropWhile p = l.dropWhile p ++ [h] := by
  induction l with
  | nil => simp [List.dropWhile, hh]
  | cons a l ih =>
    by_cases ha : p a = true
    · simp only [List.cons_append, List.dropWhile_cons, ha, if_true]
      exact ih
    · simp [List.dropWhile_cons, ha]

/-- `trim_start` removes everything iff the string is all whitespace. -/
theorem trimStart_eq_nil_iff (s : Str) : trimStart s = [] ↔ ∀ c ∈ s, isWs c = true := by
  simp [trimStart, List.dropWhile_eq_nil_iff]

/-- A trimmed-from-the-start string is empty or starts with a
non-whitespace character. -/
theorem trimStart_shape (s : Str) :
    trimStart s = [] ∨ ∃ h t, trimStart s = h :: t ∧ isWs h = false := by
  induction s with
  | nil => left; rfl
  | cons a s ih =>
    by_cases ha : isWs a = true
    · simpa [trimStart, List.dropWhile_cons, ha] using ih
    · right
      refine ⟨a, s, by simp [trimStart, List.dropWhile_cons, ha], by simpa using ha⟩

/-- `trim_start` keeps a string whose head is not whitespace. -/
theorem trimStart_of_head (h : Char) (t : Str) (hh : isWs h = false) :
    trimStart (h :: t) = h :: t := by
  simp [trimStart, List.dropWhile_cons, hh]

/-- `trim_end` keeps a non-whitespace head. -/
theorem trimEnd_cons_of_head (h : Char) (t : Str) (hh : isWs h = false) :
    trimEnd (h :: t) = h :: trimEnd t := by
  simp [trimEnd, dropWhile_append_one isWs h hh]

/-- `trim_end` is idempotent. -/
theorem trimEnd_idem (s : Str) : trimEnd (trimEnd s) = trimEnd s := by
  simp [trimEnd, dropWhile_self_idem]

/-- `trim` is idempotent, i.e. a trimmed string has no leading or
trailing whitespace left. -/
theorem trim_idem (s : Str) : trim (trim s) = trim s := by
  unfold trim
  rcases trimStart_shape s with h0 | ⟨h, t, he, hh⟩
  · rw [h0]; rfl
  · rw [he, trimEnd_cons_of_head h t hh, trimStart_of_head h _ hh,
      trimEnd_cons_of_head h _ hh, trimEnd_idem]

/-- A string containing a non-whitespace character does not trim to
nothing. -/
theorem trim_ne_nil_of_mem (s : Str) (c : Char) (hc : c ∈ s) (hw : isWs c = false) :
    trim s ≠ [] := by
  rcases trimStart_shape s with h0 | ⟨h, t, he, hh⟩
  · exact absurd ((trimStart_eq_nil_iff s).1 h0 c hc) (by simp [hw])
  · rw [trim, he, trimEnd_cons_of_head h t hh]
    simp

/-- Every accumulated piece is non-empty and fully trimmed. -/
def piecesOk (l : List Str) : Prop := ∀ p ∈ l, p ≠ [] ∧ trim p = p

/-- One `split_arguments` step preserves the piece invariant. -/
theorem splitStep_piecesOk (st : SplitSt) (ch : Char) (h : piecesOk st.result) :
    piecesOk (splitStep st ch).result := by
  unfold splitStep
  split_ifs with h1 h2 h3 h4 h5 h6 <;> try exact h
  by_cases ht : (trim st.current).isEmpty = true
  · simpa [ht] using h
  · intro p hp
    simp only [ht, if_false, ite_false] at hp
    rcases List.mem_append.1 hp with hp | hp
    · exact h p hp
    · rcases List.mem_singleton.1 hp with rfl
      exact ⟨by simpa using ht, trim_idem st.current⟩

/-- The whole `split_arguments` fold preserves the piece invariant. -/
theorem foldl_piecesOk (l : Str) (st : SplitSt) (h : piecesOk st.result) :
    piecesOk (l.foldl splitStep st).result := by
  induction l generalizing st with
  | nil => exact h
  | cons a l ih => exact ih _ (splitStep_piecesOk st a h)

/-- C10 (confirmed): `split_arguments` (app.rs 1948–2005) returns a
non-empty list whenever the input has a non-whitespace character; every
returned piece is non-empty with no leading or trailing whitespace
(`trim p = p`); and a comma seen inside a double-quoted string or at
positive nesting depth is appended to the current piece instead of
starting a new one. -/
theorem c10_theorem (args : Str) :
    ((∃ c ∈ args, isWs c = false) → splitArguments args ≠ []) ∧
    (∀ p ∈ splitArguments args, p ≠ [] ∧ trim p = p) ∧
    (∀ st : SplitSt, (st.in_string = true ∨ 0 < st.depth) →
      (splitStep st ',').result = st.result ∧
      (splitStep st ',').current = st.current ++ [',']) := by
  refine ⟨?_, ?_, ?_⟩
  · rintro ⟨c, hc, hw⟩
    have htrim : trim args ≠ [] := trim_ne_nil_of_mem args c hc hw
    unfold splitArguments
    dsimp only
    split
    all_goals split
    · simp
    · rename_i hc2
      intro h0
      apply hc2
      simp [h0, htrim]
    · simp
    · simp
  · intro p hp
    unfold splitArguments at hp
    dsimp only at hp
    have hbase : piecesOk (args.foldl splitStep ⟨[], [], 0, false, false⟩).result :=
      foldl_piecesOk args _ (by intro q hq; cases hq)
    split at hp
    · split at hp
      · rcases List.mem_singleton.1 hp with rfl
        rename_i hcond
        simp only [Bool.and_eq_true] at hcond
        exact ⟨by simpa using hcond.2, trim_idem args⟩
      · exact hbase p hp
    · rename_i hinner
      split at hp
      · rcases List.mem_singleton.1 hp with rfl
        rename_i hcond
        simp only [Bool.and_eq_true] at hcond
        exact ⟨by simpa using hcond.2, trim_idem args⟩
      · rcases List.mem_append.1 hp with hp2 | hp2
        · exact hbase p hp2
        · rcases List.mem_singleton.1 hp2 with rfl
          exact ⟨by simpa using hinner, trim_idem _⟩
  · intro st hst
    unfold splitStep
    by_cases he : st.escape_next = true
    · rw [if_pos he]
      exact ⟨rfl, rfl⟩
    · rw [if_neg he, if_neg (by decide), if_neg (by decide)]
      rcases hst with hs | hd
      · rw [if_neg (by simp [hs]), if_neg (by simp [hs]), if_neg (by simp [hs])]
        exact ⟨rfl, rfl⟩
      · rw [if_neg (by simp), if_neg (by simp),
          if_neg (by simp; omega)]
        exact ⟨rfl, rfl⟩

/-- C10 (witness): the general theorem at a concrete argument string
with a quoted comma and a parenthesised comma. -/
theorem c10_witness :
    splitArguments (str " f(a, b) , \"x,)y\" ") ≠ [] ∧
    (∀ p ∈ splitArguments (str " f(a, b) , \"x,)y\" "), p ≠ [] ∧ trim p = p) ∧
    (splitStep ⟨[], str "f(a", 1, false, false⟩ ',').result = [] :=
  ⟨(c10_theorem (str " f(a, b) , \"x,)y\" ")).1 ⟨'f', by decide, by decide⟩,
   (c10_theorem (str " f(a, b) , \"x,)y\" ")).2.1,
   by
    rw [((c10_theorem []).2.2 ⟨[], str "f(a", 1, false, false⟩ (Or.inr (by decide))).1]⟩

/-! ### C6: process-graph lane assignment

The proof proceeds in three layers: generic facts about the association
lists and the insertion sort; an invariant of the first scanning pass
(`sInvLe`); and an invariant (`gInv`) carried through the second,
lane-assigning pass over the sorted event stream. -/

/-- `aInsert` at one key leaves lookups at other keys unchanged. -/
theorem aLookup_aInsert_ne {κ ν : Type} [DecidableEq κ]
    (l : List (κ × ν)) (k k2 : κ) (v : ν) (h : k ≠ k2) :
    aLookup (aInsert l k v) k2 = aLookup l k2 := by
  induction l with
  | nil => simp [aInsert, aLookup, h]
  | cons a t ih =>
    obtain ⟨k1, v1⟩ := a
    by_cases hk : k1 = k
    · subst hk
      simp [aInsert, aLookup, h]
    · simp only [aInsert, if_neg hk, aLookup]
      by_cases hk2 : k1 = k2
      · simp [hk2]
      · simp [hk2, ih]

/-- A successful lookup exhibits a member of the list. -/
theorem aLookup_mem {κ ν : Type} [DecidableEq κ]
    (l : List (κ × ν)) (k : κ) (v : ν) (h : aLookup l k = some v) : (k, v) ∈ l := by
  induction l with
  | nil => cases h
  | cons a t ih =>
    obtain ⟨k1, v1⟩ := a
    by_cases hk : k1 = k
    · subst hk
      simp only [aLookup, if_pos rfl] at h
      cases h
      exact List.mem_cons_self _ _
    · simp only [aLookup, if_neg hk] at h
      exact List.mem_cons_of_mem _ (ih h)

/-- A failed lookup means the key is absent. -/
theorem aLookup_none_not_mem {κ ν : Type} [DecidableEq κ]
    (l : List (κ × ν)) (k : κ) (h : aLookup l k = none) : k ∉ l.map Prod.fst := by
  induction l with
  | nil => simp
  | cons a t ih =>
    obtain ⟨k1, v1⟩ := a
    by_cases hk : k1 = k
    · simp [aLookup, hk] at h
    · simp only [aLookup, if_neg hk] at h
      simp only [List.map_cons, List.mem_cons]
      push_neg
      exact ⟨fun he => hk he.symm, ih h⟩

/-- Members of `aInsert` are old members or the new binding. -/
theorem mem_aInsert {κ ν : Type} [DecidableEq κ]
    (l : List (κ × ν)) (k : κ) (v : ν) (x : κ × ν) (h : x ∈ aInsert l k v) :
    x ∈ l ∨ x = (k, v) := by
  induction l with
  | nil => exact Or.inr (List.mem_singleton.1 h)
  | cons a t ih =>
    obtain ⟨k1, v1⟩ := a
    by_cases hk : k1 = k
    · subst hk
      simp only [aInsert, if_pos rfl] at h
      rcases List.mem_cons.1 h with h | h
      · exact Or.inr h
      · exact Or.inl (List.mem_cons_of_mem _ h)
    · simp only [aInsert, if_neg hk] at h
      rcases List.mem_cons.1 h with h | h
      · exact Or.inl (h ▸ List.mem_cons_self _ _)
      · rcases ih h with h | h
        · exact Or.inl (List.mem_cons_of_mem _ h)
        · exact Or.inr h

/-- Members of `aOrInsert` are old members or the new binding. -/
theorem mem_aOrInsert {κ ν : Type} [DecidableEq κ]
    (l : List (κ × ν)) (k : κ) (v : ν) (x : κ × ν) (h : x ∈ aOrInsert l k v) :
    x ∈ l ∨ x = (k, v) := by
  unfold aOrInsert at h
  split at h
  · exact Or.inl h
  · rcases List.mem_append.1 h with h | h
    · exact Or.inl h
    · exact Or.inr (List.mem_singleton.1 h)

/-- Key membership after `aInsert`. -/
theorem aKeys_aInsert_mem {κ ν : Type} [DecidableEq κ]
    (l : List (κ × ν)) (k a : κ) (v : ν) :
    (a ∈ (aInsert l k v).map Prod.fst) ↔ a = k ∨ a ∈ l.map Prod.fst := by
  induction l with
  | nil => simp [aInsert]
  | cons b t ih =>
    obtain ⟨k1, v1⟩ := b
    by_cases hk : k1 = k
    · subst hk
      simp [aInsert]
    · simp only [aInsert, if_neg hk, List.map_cons, List.mem_cons, ih]
      tauto

/-- `aInsert` preserves key uniqueness. -/
theorem nodup_aInsert {κ ν : Type} [DecidableEq κ]
    (l : List (κ × ν)) (k : κ) (v : ν) (h : (l.map Prod.fst).Nodup) :
    ((aInsert l k v).map Prod.fst).Nodup := by
  induction l with
  | nil => simp [aInsert]
  | cons b t ih =>
    obtain ⟨k1, v1⟩ := b
    simp only [List.map_cons] at h
    obtain ⟨h1, h2⟩ := List.nodup_cons.1 h
    by_cases hk : k1 = k
    · subst hk
      simpa [aInsert] using h
    · simp only [aInsert, if_neg hk, List.map_cons]
      refine List.nodup_cons.2 ⟨?_, ih h2⟩
      intro hmem
      rcases (aKeys_aInsert_mem t k k1 v).1 hmem with he | he
      · exact hk he
      · exact h1 he

/-- `aOrInsert` preserves key uniqueness. -/
theorem nodup_aOrInsert {κ ν : Type} [DecidableEq κ]
    (l : List (κ × ν)) (k : κ) (v : ν) (h : (l.map Prod.fst).Nodup) :
    ((aOrInsert l k v).map Prod.fst).Nodup := by
  unfold aOrInsert
  split
  · exact h
  · next hnone =>
    rw [List.map_append]
    refine List.Nodup.append h (by simp) ?_
    intro a ha hb
    rw [List.map_singleton, List.mem_singleton] at hb
    have hb2 : a = k := hb
    exact aLookup_none_not_mem l k hnone (hb2 ▸ ha)

/-- Membership through the stable insertion step. -/
theorem mem_insBy {α : Type} (key : α → Nat) (x a : α) (l : List α) :
    a ∈ insBy key x l ↔ a = x ∨ a ∈ l := by
  induction l with
  | nil => simp [insBy]
  | cons y t ih =>
    by_cases h : key y ≤ key x
    · simp only [insBy, if_pos h, List.mem_cons, ih]
      tauto
    · simp only [insBy, if_neg h, List.mem_cons]

/-- The insertion step permutes. -/
theorem perm_insBy {α : Type} (key : α → Nat) (x : α) (l : List α) :
    (insBy key x l).Perm (x :: l) := by
  induction l with
  | nil => exact List.Perm.refl _
  | cons y t ih =>
    by_cases h : key y ≤ key x
    · simp only [insBy, if_pos h]
      exact (ih.cons y).trans (List.Perm.swap x y t)
    · simp only [insBy, if_neg h]
      exact List.Perm.refl _

/-- The sorting fold permutes the accumulator and the input. -/
theorem perm_sortAcc {α : Type} (key : α → Nat) (l acc : List α) :
    (l.foldl (fun a x => insBy key x a) acc).Perm (acc ++ l) := by
  induction l generalizing acc with
  | nil => simp
  | cons x t ih =>
    simp only [List.foldl_cons]
    refine ((ih (insBy key x acc)).trans ?_)
    refine ((perm_insBy key x acc).append_right t).trans ?_
    exact List.perm_middle.symm

/-- `sortByKey` permutes its input. -/
theorem perm_sortByKey {α : Type} (key : α → Nat) (l : List α) :
    (sortByKey key l).Perm l := by
  simpa [sortByKey] using perm_sortAcc key l []

/-- The insertion step preserves key-sortedness. -/
theorem pairwise_insBy {α : Type} (key : α → Nat) (x : α) (l : List α)
    (h : l.Pairwise (fun a b => key a ≤ key b)) :
    (insBy key x l).Pairwise (fun a b => key a ≤ key b) := by
  induction l with
  | nil => simp [insBy]
  | cons y t ih =>
    obtain ⟨hy, ht⟩ := List.pairwise_cons.1 h
    by_cases hk : key y ≤ key x
    · simp only [insBy, if_pos hk]
      refine List.pairwise_cons.2 ⟨?_, ih ht⟩
      intro a ha
      rcases (mem_insBy key x a t).1 ha with rfl | ha
      · exact hk
      · exact hy a ha
    · simp only [insBy, if_neg hk]
      refine List.pairwise_cons.2 ⟨?_, h⟩
      intro a ha
      rcases List.mem_cons.1 ha with rfl | ha
      · omega
      · have h2 := hy a ha
        omega

/-- `sortByKey` output is sorted by the key. -/
theorem pairwise_sortByKey {α : Type} (key : α → Nat) (l : List α) :
    (sortByKey key l).Pairwise (fun a b => key a ≤ key b) := by
  suffices hs : ∀ acc, acc.Pairwise (fun a b => key a ≤ key b) →
      (l.foldl (fun a x => insBy key x a) acc).Pairwise (fun a b => key a ≤ key b) by
    exact hs [] (by simp)
  induction l with
  | nil => intro acc h; simpa using h
  | cons x t ih =>
    intro acc h
    simp only [List.foldl_cons]
    exact ih _ (pairwise_insBy key x acc h)

/-- The tie discipline of the sorted event stream: every end event is
followed only by start events with strictly larger entry index.  It
holds because the stable sort receives all start events before all end
events. -/
def tieOK : List PEvent → Prop
  | [] => True
  | e :: rest =>
    (e.isEnd = true → ∀ q f, PEvent.mk q f false ∈ rest → e.idx < f) ∧ tieOK rest

/-- A list of start events trivially satisfies the tie discipline. -/
theorem tieOK_of_allStarts (l : List PEvent) (h : ∀ e ∈ l, e.isEnd = false) : tieOK l := by
  induction l with
  | nil => trivial
  | cons e t ih =>
    refine ⟨?_, ih fun x hx => h x (List.mem_cons_of_mem _ hx)⟩
    intro he
    rw [h e (List.mem_cons_self _ _)] at he
    cases he

/-- Inserting an end event into a sorted tie-disciplined list keeps the
discipline. -/
theorem insBy_tieOK (e : PEvent) (he : e.isEnd = true) (l : List PEvent)
    (hs : l.Pairwise (fun a b => a.idx ≤ b.idx)) (ht : tieOK l) :
    tieOK (insBy PEvent.idx e l) := by
  induction l with
  | nil =>
    refine ⟨?_, trivial⟩
    intro _ q f hq
    exact absurd hq (List.not_mem_nil _)
  | cons y t ih =>
    obtain ⟨ht1, ht2⟩ := ht
    obtain ⟨hy, hs2⟩ := List.pairwise_cons.1 hs
    by_cases hk : PEvent.idx y ≤ PEvent.idx e
    · simp only [insBy, if_pos hk]
      refine ⟨?_, ih hs2 ht2⟩
      intro hyend q f hq
      rcases (mem_insBy PEvent.idx e (PEvent.mk q f false) t).1 hq with heq | hq
      · rw [← heq] at he
        cases he
      · exact ht1 hyend q f hq
    · simp only [insBy, if_neg hk]
      refine ⟨?_, ht1, ht2⟩
      intro _ q f hq
      rcases List.mem_cons.1 hq with rfl | hq
      · dsimp [PEvent.idx] at hk
        omega
      · have h2 := hy _ hq
        dsimp [PEvent.idx] at h2 hk ⊢
        omega

/-- Folding end events into a sorted tie-disciplined accumulator keeps
the discipline. -/
theorem tieOK_foldEnds : ∀ (ends : List PEvent), (∀ e ∈ ends, e.isEnd = true) →
    ∀ acc, acc.Pairwise (fun a b => a.idx ≤ b.idx) → tieOK acc →
    tieOK (ends.foldl (fun a x => insBy PEvent.idx x a) acc)
  | [], _, acc, _, ht => ht
  | e :: t, hends, acc, hp, ht => by
    simp only [List.foldl_cons]
    exact tieOK_foldEnds t (fun x hx => hends x (List.mem_cons_of_mem _ hx)) _
      (pairwise_insBy _ e acc hp)
      (insBy_tieOK e (hends e (List.mem_cons_self _ _)) acc hp ht)

/-- The stably sorted concatenation of start events and end events
satisfies the tie discipline. -/
theorem tieOK_sortStartsEnds (starts ends : List PEvent)
    (hs : ∀ e ∈ starts, e.isEnd = false) (he : ∀ e ∈ ends, e.isEnd = true) :
    tieOK (sortByKey PEvent.idx (starts ++ ends)) := by
  unfold sortByKey
  rw [List.foldl_append]
  refine tieOK_foldEnds ends he _ (pairwise_sortByKey PEvent.idx starts) ?_
  refine tieOK_of_allStarts _ ?_
  intro x hx
  exact hs x ((perm_sortByKey PEvent.idx starts).mem_iff.1 hx)

/-- The first-pass invariant: every first-seen entry has a last-seen
entry at least as large, all recorded indices are bounded by `n`, and
both maps have unique keys. -/
def sInvLe (s : Scan) (n : Nat) : Prop :=
  (∀ p f, (p, f) ∈ s.firstSeen → ∃ L, aLookup s.lastSeen p = some L ∧ f ≤ L) ∧
  (∀ x ∈ s.lastSeen, x.2 ≤ n) ∧
  (s.firstSeen.map Prod.fst).Nodup ∧
  (s.lastSeen.map Prod.fst).Nodup

/-- The invariant bound is monotone. -/
theorem sInvLe_mono (s : Scan) (n m : Nat) (h : sInvLe s n) (hnm : n ≤ m) : sInvLe s m :=
  ⟨h.1, fun x hx => le_trans (h.2.1 x hx) hnm, h.2.2.1, h.2.2.2⟩

/-- The paired first-seen/last-seen update of one PID at index `n`
preserves the invariant (for any fork table). -/
theorem sInvLe_upd (s : Scan) (p n : Nat) (fr : List (Nat × Nat × Nat)) (h : sInvLe s n) :
    sInvLe ⟨aOrInsert s.firstSeen p n, aInsert s.lastSeen p n, fr⟩ n := by
  obtain ⟨h1, h2, h3, h4⟩ := h
  refine ⟨?_, ?_, nodup_aOrInsert _ _ _ h3, nodup_aInsert _ _ _ h4⟩
  · intro q f hq
    rcases mem_aOrInsert _ _ _ _ hq with hq | hq
    · obtain ⟨L, hL, hfL⟩ := h1 q f hq
      by_cases hpq : p = q
      · subst hpq
        exact ⟨n, aLookup_aInsert_self _ _ _,
          le_trans hfL (h2 _ (aLookup_mem _ _ _ hL))⟩
      · exact ⟨L, by rw [aLookup_aInsert_ne _ _ _ _ hpq]; exact hL, hfL⟩
    · injection hq with hq1 hq2
      rw [hq1, hq2]
      exact ⟨n, aLookup_aInsert_self _ _ _, le_refl n⟩
  · intro x hx
    rcases mem_aInsert _ _ _ _ hx with hx | hx
    · exact h2 x hx
    · subst hx
      exact le_refl n

/-- A last-seen-only update (the wait branch) preserves the invariant. -/
theorem sInvLe_waitUpd (s : Scan) (w n : Nat) (h : sInvLe s n) :
    sInvLe { s with lastSeen := aInsert s.lastSeen w n } n := by
  obtain ⟨h1, h2, h3, h4⟩ := h
  refine ⟨?_, ?_, h3, nodup_aInsert _ _ _ h4⟩
  · intro q f hq
    obtain ⟨L, hL, hfL⟩ := h1 q f hq
    by_cases hw : w = q
    · subst hw
      exact ⟨n, aLookup_aInsert_self _ _ _,
        le_trans hfL (h2 _ (aLookup_mem _ _ _ hL))⟩
    · exact ⟨L, by rw [aLookup_aInsert_ne _ _ _ _ hw]; exact hL, hfL⟩
  · intro x hx
    rcases mem_aInsert _ _ _ _ hx with hx | hx
    · exact h2 x hx
    · subst hx
      exact le_refl n

/-- `scanStep` preserves the invariant at its own index. -/
theorem scanStep_sInv (idx : Nat) (e : SyscallEntry) (s : Scan) (h : sInvLe s idx) :
    sInvLe (scanStep idx e s) idx := by
  unfold scanStep
  dsimp only
  have hs1 := sInvLe_upd s e.pid idx s.forkRels h
  split
  case isTrue =>
    split
    case h_1 w heq =>
      split
      case isTrue hw =>
        apply sInvLe_waitUpd
        split
        case isTrue hf =>
          dsimp only
          split
          case isTrue h2 => exact sInvLe_upd ⟨aOrInsert s.firstSeen e.pid idx, aInsert s.lastSeen e.pid idx, s.forkRels⟩ _ idx _ hs1
          case isFalse h2 => exact absurd hw h2
        case isFalse hf => exact hs1
      case isFalse hw =>
        split
        case isTrue hf =>
          dsimp only
          split
          case isTrue h2 => exact sInvLe_upd ⟨aOrInsert s.firstSeen e.pid idx, aInsert s.lastSeen e.pid idx, s.forkRels⟩ _ idx _ hs1
          case isFalse h2 => exact hs1
        case isFalse hf => exact hs1
    case h_2 heq =>
      split
      case isTrue hf => exact hs1
      case isFalse hf => exact hs1
  case isFalse =>
    split
    case isTrue hf =>
      split
      case h_1 child heq =>
        split
        case isTrue h2 => exact sInvLe_upd ⟨aOrInsert s.firstSeen e.pid idx, aInsert s.lastSeen e.pid idx, s.forkRels⟩ _ idx _ hs1
        case isFalse h2 => exact hs1
      case h_2 heq => exact hs1
    case isFalse hf => exact hs1

/-- The whole first pass establishes the invariant. -/
theorem scanGo_sInv (entries : List SyscallEntry) (idx : Nat) (s : Scan) (h : sInvLe s idx) :
    sInvLe (scanGo idx s entries) (idx + entries.length) := by
  induction entries generalizing idx s with
  | nil => simpa using h
  | cons e t ih =>
    simp only [scanGo, List.length_cons]
    have h2 := sInvLe_mono _ idx (idx + 1) (scanStep_sInv idx e s h) (Nat.le_succ idx)
    have h3 := ih (idx + 1) (scanStep idx e s) h2
    have he : idx + 1 + t.length = idx + (t.length + 1) := by omega
    rw [he] at h3
    exact h3

/-- Unfolding lemma for `tieOK` on a cons cell. -/
theorem tieOK_cons (e : PEvent) (rest : List PEvent) :
    tieOK (e :: rest) ↔
      ((e.isEnd = true → ∀ q f, PEvent.mk q f false ∈ rest → e.idx < f) ∧ tieOK rest) :=
  Iff.rfl

/-- The suffix conditions carried through the second pass: the tie
discipline, uniqueness of pending end events per PID, and the fact that
every pending start still has its end event pending, at the last-seen
index. -/
structure SfxOK (ls : List (Nat × Nat)) (l : List PEvent) : Prop where
  tie : tieOK l
  endsNodup : ((l.filter (fun e => e.isEnd)).map PEvent.pid).Nodup
  startEnds : ∀ p f, PEvent.mk p f false ∈ l →
    ∃ L, aLookup ls p = some L ∧ f ≤ L ∧ PEvent.mk p L true ∈ l

/-- The second-pass invariant over the build state `s` and the pending
event suffix `l`.  A PID is *open* when it is in the map and its end
event is still pending; open PIDs hold lanes outside the free pool,
pairwise distinct, and all lanes are below the watermark. -/
structure GInv (s : GBuild) (l : List PEvent) : Prop where
  freeNodup : s.free_columns.Nodup
  freeBound : ∀ c ∈ s.free_columns, c < s.max_columns
  openCols : ∀ p info, aLookup s.processes p = some info →
    PEvent.mk p info.last_entry_idx true ∈ l →
    info.column ∉ s.free_columns ∧ info.column < s.max_columns
  openPD : ∀ p q ip iq, aLookup s.processes p = some ip →
    PEvent.mk p ip.last_entry_idx true ∈ l →
    aLookup s.processes q = some iq →
    PEvent.mk q iq.last_entry_idx true ∈ l →
    p ≠ q → ip.column ≠ iq.column
  pendD : ∀ p info, aLookup s.processes p = some info →
    PEvent.mk p info.last_entry_idx true ∈ l ∨
    ∀ q f, PEvent.mk q f false ∈ l → info.last_entry_idx < f
  endIdx : ∀ p info, aLookup s.processes p = some info →
    ∀ L, PEvent.mk p L true ∈ l → L = info.last_entry_idx
  distinctCols : ∀ p q ip iq, aLookup s.processes p = some ip →
    aLookup s.processes q = some iq → p ≠ q →
    ip.first_entry_idx ≤ iq.last_entry_idx → iq.first_entry_idx ≤ ip.last_entry_idx →
    ip.column ≠ iq.column

/-- The suffix conditions restrict to the tail. -/
theorem sfxTail (ls : List (Nat × Nat)) (ev : PEvent) (rest : List PEvent)
    (h : SfxOK ls (ev :: rest)) : SfxOK ls rest := by
  obtain ⟨htie, hn, hse⟩ := h
  obtain ⟨ht1, ht2⟩ := (tieOK_cons ev rest).1 htie
  refine ⟨ht2, ?_, ?_⟩
  · by_cases he : ev.isEnd = true
    · rw [List.filter_cons_of_pos he, List.map_cons] at hn
      exact (List.nodup_cons.1 hn).2
    · rwa [List.filter_cons_of_neg he] at hn
  · intro p f hpf
    obtain ⟨L, hL, hfL, hend⟩ := hse p f (List.mem_cons_of_mem _ hpf)
    refine ⟨L, hL, hfL, ?_⟩
    rcases List.mem_cons.1 hend with heq | hend2
    · exfalso
      have hc := ht1 (by rw [← heq]) p f hpf
      have hidx : ev.idx = L := by rw [← heq]
      omega
    · exact hend2

/-- In a pid-unique end list, two end events for the same PID agree on
their index. -/
theorem endsOnce (l : List PEvent)
    (hn : ((l.filter (fun e => e.isEnd)).map PEvent.pid).Nodup)
    (p L1 L2 : Nat) (h1 : PEvent.mk p L1 true ∈ l) (h2 : PEvent.mk p L2 true ∈ l) :
    L1 = L2 := by
  have e1 : PEvent.mk p L1 true ∈ l.filter (fun e => e.isEnd) :=
    List.mem_filter.2 ⟨h1, rfl⟩
  have e2 : PEvent.mk p L2 true ∈ l.filter (fun e => e.isEnd) :=
    List.mem_filter.2 ⟨h2, rfl⟩
  have h3 := List.inj_on_of_nodup_map hn e1 e2 rfl
  exact congrArg PEvent.idx h3

/-- After an end event is consumed, no further end event for its PID is
pending. -/
theorem headEnd_not_in_tail (ev : PEvent) (rest : List PEvent) (he : ev.isEnd = true)
    (hn : (((ev :: rest).filter (fun e => e.isEnd)).map PEvent.pid).Nodup) :
    ∀ L, PEvent.mk ev.pid L true ∉ rest := by
  intro L hmem
  rw [List.filter_cons_of_pos he, List.map_cons] at hn
  exact (List.nodup_cons.1 hn).1
    (List.mem_map.2 ⟨PEvent.mk ev.pid L true, List.mem_filter.2 ⟨hmem, rfl⟩, rfl⟩)

/-- The initial build state satisfies the invariant for any suffix. -/
theorem gInvInit (l : List PEvent) : GInv ⟨[], [], 0, 0⟩ l := by
  refine ⟨List.nodup_nil, ?_, ?_, ?_, ?_, ?_, ?_⟩
  · intro c hc
    exact absurd hc (List.not_mem_nil c)
  · intro p info hl
    simp [aLookup] at hl
  · intro p q ip iq hlp
    simp [aLookup] at hlp
  · intro p info hl
    simp [aLookup] at hl
  · intro p info hl
    simp [aLookup] at hl
  · intro p q ip iq hlp
    simp [aLookup] at hlp

/-- Processing one start event preserves the invariant, stated for any
lane assignment `cR`, residual pool `freeR` and watermark `maxR`
satisfying the pool conditions (both the reuse and the fresh-lane cases
of `graphStep` do). -/
theorem gstart_inv (s : GBuild) (ev : PEvent) (rest : List PEvent)
    (cR : Nat) (freeR : List Nat) (maxR col cnt : Nat) (par : Option Nat) (L0 : Nat)
    (hstart : ev.isEnd = false)
    (hstartmem : PEvent.mk ev.pid ev.idx false = ev)
    (hendrest : PEvent.mk ev.pid L0 true ∈ rest)
    (hnodRest : ((rest.filter (fun e => e.isEnd)).map PEvent.pid).Nodup)
    (h_notf : cR ∉ freeR)
    (h_nod : freeR.Nodup)
    (h_bnd : ∀ x ∈ freeR, x < maxR)
    (h_clt : cR < maxR)
    (h_sub : ∀ x ∈ freeR, x ∈ s.free_columns)
    (h_old : ∀ co, co ∉ s.free_columns → co < s.max_columns → co ≠ cR)
    (hmax : s.max_columns ≤ maxR)
    (hinv : GInv s (ev :: rest)) :
    GInv ⟨aInsert s.processes ev.pid ⟨ev.pid, cR, col, ev.idx, L0, par⟩,
      freeR, maxR, cnt⟩ rest := by
  refine ⟨h_nod, h_bnd, ?_, ?_, ?_, ?_, ?_⟩
  · intro p info hl hm
    by_cases hp : p = ev.pid
    · subst hp
      rw [aLookup_aInsert_self] at hl
      have hinfo : info = ⟨ev.pid, cR, col, ev.idx, L0, par⟩ := (Option.some.inj hl).symm
      rw [hinfo]
      exact ⟨h_notf, h_clt⟩
    · have hl2 : aLookup s.processes p = some info := by
        rwa [aLookup_aInsert_ne _ _ _ _ (fun he => hp he.symm)] at hl
      obtain ⟨hf1, hf2⟩ := hinv.openCols p info hl2 (List.mem_cons_of_mem _ hm)
      exact ⟨fun hmem => hf1 (h_sub _ hmem), lt_of_lt_of_le hf2 hmax⟩
  · intro p q ip iq hlp hmp hlq hmq hpq
    by_cases hp : p = ev.pid
    · subst hp
      rw [aLookup_aInsert_self] at hlp
      have hip : ip = ⟨ev.pid, cR, col, ev.idx, L0, par⟩ := (Option.some.inj hlp).symm
      have hq : q ≠ ev.pid := Ne.symm hpq
      have hlq2 : aLookup s.processes q = some iq := by
        rwa [aLookup_aInsert_ne _ _ _ _ (fun he => hq he.symm)] at hlq
      obtain ⟨hf1, hf2⟩ := hinv.openCols q iq hlq2 (List.mem_cons_of_mem _ hmq)
      rw [hip]
      exact fun he => (h_old iq.column hf1 hf2) he.symm
    · by_cases hq : q = ev.pid
      · subst hq
        rw [aLookup_aInsert_self] at hlq
        have hiq : iq = ⟨ev.pid, cR, col, ev.idx, L0, par⟩ := (Option.some.inj hlq).symm
        have hlp2 : aLookup s.processes p = some ip := by
          rwa [aLookup_aInsert_ne _ _ _ _ (fun he => hp he.symm)] at hlp
        obtain ⟨hf1, hf2⟩ := hinv.openCols p ip hlp2 (List.mem_cons_of_mem _ hmp)
        rw [hiq]
        exact h_old ip.column hf1 hf2
      · have hlp2 : aLookup s.processes p = some ip := by
          rwa [aLookup_aInsert_ne _ _ _ _ (fun he => hp he.symm)] at hlp
        have hlq2 : aLookup s.processes q = some iq := by
          rwa [aLookup_aInsert_ne _ _ _ _ (fun he => hq he.symm)] at hlq
        exact hinv.openPD p q ip iq hlp2 (List.mem_cons_of_mem _ hmp)
          hlq2 (List.mem_cons_of_mem _ hmq) hpq
  · intro p info hl
    by_cases hp : p = ev.pid
    · subst hp
      rw [aLookup_aInsert_self] at hl
      have hinfo : info = ⟨ev.pid, cR, col, ev.idx, L0, par⟩ := (Option.some.inj hl).symm
      left
      rw [hinfo]
      exact hendrest
    · have hl2 : aLookup s.processes p = some info := by
        rwa [aLookup_aInsert_ne _ _ _ _ (fun he => hp he.symm)] at hl
      rcases hinv.pendD p info hl2 with hin | hcl
      · rcases List.mem_cons.1 hin with heq | hin2
        · exfalso
          have h2 := congrArg PEvent.isEnd heq
          rw [hstart] at h2
          simp at h2
        · exact Or.inl hin2
      · exact Or.inr fun q f hf => hcl q f (List.mem_cons_of_mem _ hf)
  · intro p info hl L hL
    by_cases hp : p = ev.pid
    · subst hp
      rw [aLookup_aInsert_self] at hl
      have hinfo : info = ⟨ev.pid, cR, col, ev.idx, L0, par⟩ := (Option.some.inj hl).symm
      rw [hinfo]
      exact endsOnce rest hnodRest ev.pid L L0 hL hendrest
    · have hl2 : aLookup s.processes p = some info := by
        rwa [aLookup_aInsert_ne _ _ _ _ (fun he => hp he.symm)] at hl
      exact hinv.endIdx p info hl2 L (List.mem_cons_of_mem _ hL)
  · intro p q ip iq hlp hlq hpq hov1 hov2
    by_cases hp : p = ev.pid
    · subst hp
      rw [aLookup_aInsert_self] at hlp
      have hip : ip = ⟨ev.pid, cR, col, ev.idx, L0, par⟩ := (Option.some.inj hlp).symm
      have hq : q ≠ ev.pid := Ne.symm hpq
      have hlq2 : aLookup s.processes q = some iq := by
        rwa [aLookup_aInsert_ne _ _ _ _ (fun he => hq he.symm)] at hlq
      rcases hinv.pendD q iq hlq2 with hin | hcl
      · obtain ⟨hf1, hf2⟩ := hinv.openCols q iq hlq2 hin
        rw [hip]
        exact fun he => (h_old iq.column hf1 hf2) he.symm
      · exfalso
        have h3 := hcl ev.pid ev.idx (by rw [hstartmem]; exact List.mem_cons_self _ _)
        rw [hip] at hov1
        dsimp at hov1
        omega
    · by_cases hq : q = ev.pid
      · subst hq
        rw [aLookup_aInsert_self] at hlq
        have hiq : iq = ⟨ev.pid, cR, col, ev.idx, L0, par⟩ := (Option.some.inj hlq).symm
        have hlp2 : aLookup s.processes p = some ip := by
          rwa [aLookup_aInsert_ne _ _ _ _ (fun he => hp he.symm)] at hlp
        rcases hinv.pendD p ip hlp2 with hin | hcl
        · obtain ⟨hf1, hf2⟩ := hinv.openCols p ip hlp2 hin
          rw [hiq]
          exact h_old ip.column hf1 hf2
        · exfalso
          have h3 := hcl ev.pid ev.idx (by rw [hstartmem]; exact List.mem_cons_self _ _)
          rw [hiq] at hov2
          dsimp at hov2
          omega
      · have hlp2 : aLookup s.processes p = some ip := by
          rwa [aLookup_aInsert_ne _ _ _ _ (fun he => hp he.symm)] at hlp
        have hlq2 : aLookup s.processes q = some iq := by
          rwa [aLookup_aInsert_ne _ _ _ _ (fun he => hq he.symm)] at hlq
        exact hinv.distinctCols p q ip iq hlp2 hlq2 hpq hov1 hov2

/-- One `graphStep` preserves the invariant against the remaining
suffix. -/
theorem gstep_inv (ls : List (Nat × Nat)) (fr : List (Nat × Nat × Nat))
    (s : GBuild) (ev : PEvent) (rest : List PEvent)
    (hsfx : SfxOK ls (ev :: rest)) (hinv : GInv s (ev :: rest)) :
    GInv (graphStep ls fr s ev) rest := by
  obtain ⟨htie, hnod, hse⟩ := hsfx
  have htie1 := ((tieOK_cons ev rest).1 htie).1
  unfold graphStep
  by_cases hend : ev.isEnd = true
  · rw [if_pos hend]
    cases hlook : aLookup s.processes ev.pid with
    | none =>
      refine ⟨hinv.freeNodup, hinv.freeBound, ?_, ?_, ?_, ?_, ?_⟩
      · intro p info hl hm
        exact hinv.openCols p info hl (List.mem_cons_of_mem _ hm)
      · intro p q ip iq hlp hmp hlq hmq hpq
        exact hinv.openPD p q ip iq hlp (List.mem_cons_of_mem _ hmp)
          hlq (List.mem_cons_of_mem _ hmq) hpq
      · intro p info hl
        rcases hinv.pendD p info hl with hin | hcl
        · rcases List.mem_cons.1 hin with heq | hin2
          · exfalso
            have hp : p = ev.pid := congrArg PEvent.pid heq
            rw [hp, hlook] at hl
            cases hl
          · exact Or.inl hin2
        · exact Or.inr fun q f hf => hcl q f (List.mem_cons_of_mem _ hf)
      · intro p info hl L hL
        exact hinv.endIdx p info hl L (List.mem_cons_of_mem _ hL)
      · exact hinv.distinctCols
    | some info0 =>
      have hev : PEvent.mk ev.pid ev.idx true = ev := by rw [← hend]
      have hL0 : ev.idx = info0.last_entry_idx :=
        hinv.endIdx ev.pid info0 hlook ev.idx (by rw [hev]; exact List.mem_cons_self _ _)
      have hm0 : PEvent.mk ev.pid info0.last_entry_idx true ∈ ev :: rest := by
        rw [← hL0, hev]
        exact List.mem_cons_self _ _
      obtain ⟨hc0free, hc0max⟩ := hinv.openCols ev.pid info0 hlook hm0
      have hnoend := headEnd_not_in_tail ev rest hend hnod
      refine ⟨?_, ?_, ?_, ?_, ?_, ?_, ?_⟩
      · refine List.Nodup.append hinv.freeNodup (List.nodup_singleton _) ?_
        intro a ha hb
        rw [List.mem_singleton] at hb
        exact hc0free (hb ▸ ha)
      · intro c hc
        rcases List.mem_append.1 hc with hc | hc
        · exact hinv.freeBound c hc
        · rw [List.mem_singleton] at hc
          rw [hc]
          exact hc0max
      · intro p info hl hm
        have hps : p ≠ ev.pid := by
          intro hp
          exact hnoend info.last_entry_idx (by rw [← hp]; exact hm)
        obtain ⟨hf1, hf2⟩ := hinv.openCols p info hl (List.mem_cons_of_mem _ hm)
        refine ⟨?_, hf2⟩
        intro hmem
        rcases List.mem_append.1 hmem with hm2 | hm2
        · exact hf1 hm2
        · rw [List.mem_singleton] at hm2
          exact hinv.openPD p ev.pid info info0 hl (List.mem_cons_of_mem _ hm)
            hlook hm0 hps hm2
      · intro p q ip iq hlp hmp hlq hmq hpq
        exact hinv.openPD p q ip iq hlp (List.mem_cons_of_mem _ hmp)
          hlq (List.mem_cons_of_mem _ hmq) hpq
      · intro p info hl
        rcases hinv.pendD p info hl with hin | hcl
        · rcases List.mem_cons.1 hin with heq | hin2
          · right
            intro q f hf
            have hidx : info.last_entry_idx = ev.idx := congrArg PEvent.idx heq
            rw [hidx]
            exact htie1 hend q f hf
          · exact Or.inl hin2
        · exact Or.inr fun q f hf => hcl q f (List.mem_cons_of_mem _ hf)
      · intro p info hl L hL
        exact hinv.endIdx p info hl L (List.mem_cons_of_mem _ hL)
      · exact hinv.distinctCols
  · rw [if_neg hend]
    have hstart : ev.isEnd = false := by
      cases h2 : ev.isEnd
      · rfl
      · exact absurd h2 hend
    have hev : PEvent.mk ev.pid ev.idx false = ev := by rw [← hstart]
    obtain ⟨L0, hlsL0, hfL0, hendmem⟩ :=
      hse ev.pid ev.idx (by rw [hev]; exact List.mem_cons_self _ _)
    have hendrest : PEvent.mk ev.pid L0 true ∈ rest := by
      rcases List.mem_cons.1 hendmem with heq | h2
      · exfalso
        rw [← hev] at heq
        have h3 := congrArg PEvent.isEnd heq
        simp at h3
      · exact h2
    have hnodRest : ((rest.filter (fun e => e.isEnd)).map PEvent.pid).Nodup := by
      rwa [List.filter_cons_of_neg (by simp [hstart])] at hnod
    dsimp only
    have hgd : (aLookup ls ev.pid).getD ev.idx = L0 := by rw [hlsL0]; rfl
    rw [hgd]
    cases hsf : sortByKey id s.free_columns with
    | nil =>
      have hfree : s.free_columns = [] := by
        have hp := perm_sortByKey id s.free_columns
        rw [hsf] at hp
        exact hp.symm.eq_nil
      exact gstart_inv s ev rest s.max_columns [] (s.max_columns + 1) _ _ _ L0
        hstart hev hendrest hnodRest
        (List.not_mem_nil _) List.nodup_nil
        (fun x hx => absurd hx (List.not_mem_nil x))
        (Nat.lt_succ_self _)
        (fun x hx => absurd hx (List.not_mem_nil x))
        (fun co _ hcm he => by rw [he] at hcm; exact Nat.lt_irrefl _ hcm)
        (Nat.le_succ _) hinv
    | cons c restF =>
      have hp := perm_sortByKey id s.free_columns
      rw [hsf] at hp
      have hnd : (c :: restF).Nodup := hp.symm.nodup_iff.1 hinv.freeNodup
      have hsub : ∀ x ∈ restF, x ∈ s.free_columns :=
        fun x hx => hp.mem_iff.1 (List.mem_cons_of_mem _ hx)
      have hcfree : c ∈ s.free_columns := hp.mem_iff.1 (List.mem_cons_self _ _)
      exact gstart_inv s ev rest c restF s.max_columns _ _ _ L0
        hstart hev hendrest hnodRest
        ((List.nodup_cons.1 hnd).1) ((List.nodup_cons.1 hnd).2)
        (fun x hx => hinv.freeBound x (hsub x hx))
        (hinv.freeBound c hcfree)
        hsub
        (fun co hco _ he => hco (by rw [he]; exact hcfree))
        (le_refl _) hinv

/-- The invariant survives the whole second-pass fold. -/
theorem gfold_inv (ls : List (Nat × Nat)) (fr : List (Nat × Nat × Nat)) :
    ∀ (evs : List PEvent) (s : GBuild), SfxOK ls evs → GInv s evs →
      GInv (evs.foldl (graphStep ls fr) s) []
  | [], _, _, hinv => hinv
  | ev :: rest, s, hsfx, hinv => by
    simp only [List.foldl_cons]
    exact gfold_inv ls fr rest _ (sfxTail ls ev rest hsfx) (gstep_inv ls fr s ev rest hsfx hinv)

/-- The empty scan state satisfies the first-pass invariant. -/
theorem sInvLeInit : sInvLe ⟨[], [], []⟩ 0 := by
  refine ⟨?_, ?_, ?_, ?_⟩ <;> simp

/-- The sorted event stream of a scan satisfying the first-pass
invariant satisfies the suffix conditions. -/
theorem sfx_of_sInv (scan : Scan) (n : Nat) (h : sInvLe scan n) :
    SfxOK scan.lastSeen (orderedEvents scan) := by
  obtain ⟨h1, h2, h3, h4⟩ := h
  have hperm : (orderedEvents scan).Perm
      (scan.firstSeen.map (fun pi => PEvent.mk pi.1 pi.2 false) ++
        scan.lastSeen.map (fun pi => PEvent.mk pi.1 pi.2 true)) :=
    perm_sortByKey PEvent.idx _
  have hallS : ∀ e ∈ scan.firstSeen.map (fun pi => PEvent.mk pi.1 pi.2 false),
      e.isEnd = false := by
    intro e he
    obtain ⟨pi, _, rfl⟩ := List.mem_map.1 he
    rfl
  have hallE : ∀ e ∈ scan.lastSeen.map (fun pi => PEvent.mk pi.1 pi.2 true),
      e.isEnd = true := by
    intro e he
    obtain ⟨pi, _, rfl⟩ := List.mem_map.1 he
    rfl
  refine ⟨?_, ?_, ?_⟩
  · exact tieOK_sortStartsEnds _ _ hallS hallE
  · have hpf := (hperm.filter (fun e => e.isEnd)).map PEvent.pid
    refine hpf.nodup_iff.2 ?_
    rw [List.filter_append,
      List.filter_eq_nil_iff.2 (fun a ha => by simp [hallS a ha]),
      List.filter_eq_self.2 hallE, List.nil_append, List.map_map]
    exact h4
  · intro p f hmem
    rcases List.mem_append.1 (hperm.mem_iff.1 hmem) with hs | hs
    · obtain ⟨pi, hpi, heq⟩ := List.mem_map.1 hs
      have hp : pi.1 = p := congrArg PEvent.pid heq
      have hf : pi.2 = f := congrArg PEvent.idx heq
      have hmemfs : (p, f) ∈ scan.firstSeen := by
        rw [← hp, ← hf]
        exact hpi
      obtain ⟨L, hL, hfL⟩ := h1 p f hmemfs
      refine ⟨L, hL, hfL, ?_⟩
      refine hperm.mem_iff.2 (List.mem_append.2 (Or.inr ?_))
      exact List.mem_map.2 ⟨(p, L), aLookup_mem _ _ _ hL, rfl⟩
    · exfalso
      obtain ⟨pi, _, heq⟩ := List.mem_map.1 hs
      have h5 := congrArg PEvent.isEnd heq
      simp at h5

/-- C6 (confirmed): in the graph built by `ProcessGraph::build`
(process_graph.rs 42–138), any two distinct PIDs whose recorded
lifetime intervals `[first_entry_idx, last_entry_idx]` overlap are
assigned distinct lanes; and whenever a start event is processed while
the free-lane pool is non-empty, the assigned lane is a member of the
pool that is no larger than every pool member (the smallest free
lane). -/
theorem c6_theorem (entries : List SyscallEntry) :
    (∀ p q ip iq,
      aLookup (buildGraph entries).processes p = some ip →
      aLookup (buildGraph entries).processes q = some iq →
      p ≠ q → ip.first_entry_idx ≤ iq.last_entry_idx →
      iq.first_entry_idx ≤ ip.last_entry_idx → ip.column ≠ iq.column) ∧
    (∀ (ls : List (Nat × Nat)) (fr : List (Nat × Nat × Nat)) (s : GBuild) (ev : PEvent),
      ev.isEnd = false → s.free_columns ≠ [] →
      ∃ info, aLookup (graphStep ls fr s ev).processes ev.pid = some info ∧
        info.column ∈ s.free_columns ∧ ∀ c ∈ s.free_columns, info.column ≤ c) := by
  constructor
  · have hsinv := scanGo_sInv entries 0 ⟨[], [], []⟩ sInvLeInit
    have hsfx := sfx_of_sInv _ _ hsinv
    have hg := gfold_inv (scanGo 0 ⟨[], [], []⟩ entries).lastSeen
      (scanGo 0 ⟨[], [], []⟩ entries).forkRels
      (orderedEvents (scanGo 0 ⟨[], [], []⟩ entries)) ⟨[], [], 0, 0⟩ hsfx (gInvInit _)
    exact fun p q ip iq hp hq => hg.distinctCols p q ip iq hp hq
  · intro ls fr s ev hstart hne
    unfold graphStep
    rw [if_neg (by simp [hstart])]
    dsimp only
    cases hsf : sortByKey id s.free_columns with
    | nil =>
      exfalso
      have hp := perm_sortByKey id s.free_columns
      rw [hsf] at hp
      exact hne hp.symm.eq_nil
    | cons c restF =>
      have hp := perm_sortByKey id s.free_columns
      rw [hsf] at hp
      have hsorted := pairwise_sortByKey id s.free_columns
      rw [hsf] at hsorted
      refine ⟨_, aLookup_aInsert_self _ _ _, ?_, ?_⟩
      · exact hp.mem_iff.1 (List.mem_cons_self _ _)
      · intro x hx
        rcases List.mem_cons.1 (hp.mem_iff.2 hx) with rfl | hx3
        · exact le_refl _
        · exact (List.pairwise_cons.1 hsorted).1 x hx3

/-- The C6 witness entries: PID 1 at indices 0 and 2, PID 2 at index 1,
so the lifetimes `[0, 2]` and `[1, 1]` overlap. -/
def c6Ents : List SyscallEntry :=
  [SyscallEntry.new 1 [] (str "openat"),
   SyscallEntry.new 2 [] (str "openat"),
   SyscallEntry.new 1 [] (str "openat")]

/-- The built graph record for PID 1 of `c6Ents`. -/
def c6Info1 : ProcessInfo := ⟨1, 0, 0, 0, 2, none⟩

/-- The built graph record for PID 2 of `c6Ents`. -/
def c6Info2 : ProcessInfo := ⟨2, 1, 1, 1, 1, none⟩

/-- C6 (witness): on the concrete overlapping two-process entry list
the theorem yields distinct lanes, and a start event over the concrete
pool `[3, 2]` takes its smallest member. -/
theorem c6_witness :
    aLookup (buildGraph c6Ents).processes 1 = some c6Info1 ∧
    aLookup (buildGraph c6Ents).processes 2 = some c6Info2 ∧
    c6Info1.column ≠ c6Info2.column ∧
    (∃ info, aLookup (graphStep [] [] ⟨[], [3, 2], 5, 0⟩ ⟨7, 0, false⟩).processes 7 =
        some info ∧ info.column ∈ [3, 2] ∧ ∀ c ∈ [3, 2], info.column ≤ c) := by
  refine ⟨by decide, by decide, ?_, ?_⟩
  · exact (c6_theorem c6Ents).1 1 2 c6Info1 c6Info2 (by decide) (by decide)
      (by decide) (by decide) (by decide)
  · exact (c6_theorem c6Ents).2 [] [] ⟨[], [3, 2], 5, 0⟩ ⟨7, 0, false⟩ rfl (by decide)

end StraceTui
